import Mathlib

/-!
# Verification of the pyrite inversion engine

Shallow embedding of the core of the `pyrite` repository: the ATI
("Algorithm of Total Inversion") solver, its convergence control, the
posterior-covariance computation, the symbolic model-equation evaluator,
and the uncertainty propagator.  Two source variants exist:

* `src/pyrite.py` — the log-parameterized variant with a model-error
  covariance `Cf` (tolerance 0.01, at most 25 iterations);
* `src/old_code.py` — the linear-domain variant without `Cf`
  (tolerance 1e-6, at most 100 iterations).

Matrix inversion follows `np.linalg.inv`, which raises
`LinAlgError("Singular matrix")` on an exactly singular input; we model
it both as a total function (`matInv`, returning the zero matrix on a
singular input, used where only the algebraic form of the update is at
stake) and as a fallible function (`npLinalgInv`, returning
`Except String _`, used to track error propagation).
-/

namespace Pyrite

/-- Total matrix inverse: `det⁻¹ • adjugate`, zero on singular input.
Agrees with Mathlib's `Matrix.inv`. -/
def matInv {K : Type} [Field K] [DecidableEq K] {m : Type} [Fintype m] [DecidableEq m]
    (A : Matrix m m K) : Matrix m m K :=
  if A.det = 0 then 0 else A.det⁻¹ • A.adjugate

theorem matInv_eq_inv {K : Type} [Field K] [DecidableEq K] {m : Type} [Fintype m]
    [DecidableEq m] (A : Matrix m m K) : matInv A = A⁻¹ := by
  rw [Matrix.inv_def, Ring.inverse_eq_inv]
  unfold matInv
  split_ifs with h
  · simp [h]
  · rfl

/-- Fallible matrix inverse, modelling `np.linalg.inv`: raises
`LinAlgError("Singular matrix")` on an exactly singular matrix. -/
def npLinalgInv {K : Type} [Field K] [DecidableEq K] {m : Type} [Fintype m] [DecidableEq m]
    (A : Matrix m m K) : Except String (Matrix m m K) :=
  if A.det = 0 then Except.error "Singular matrix" else Except.ok (A.det⁻¹ • A.adjugate)

theorem npLinalgInv_ok {K : Type} [Field K] [DecidableEq K] {m : Type} [Fintype m]
    [DecidableEq m] (A : Matrix m m K) (h : A.det ≠ 0) :
    npLinalgInv A = Except.ok (matInv A) := by
  unfold npLinalgInv matInv
  rw [if_neg h, if_neg h]

/-! ## The ATI update (`calculate_xkp1`)

`src/pyrite.py` lines 508–515 (log variant, with `Cf`):
```
CoFT = Co_log @ F.T
FCoFT = F @ CoFT
FCoFTpCfi = np.linalg.inv(FCoFT + Cf)
xkp1 = (xo_log + CoFT @ FCoFTpCfi @ (F @ (xk - xo_log) - f))
```
`src/old_code.py` lines 497–511 (linear variant, no `Cf`):
```
CoFT = run.Co @ F.T
FCoFT = F @ CoFT
FCoFTi = np.linalg.inv(FCoFT)
xkp1 = self.xo + CoFT @ FCoFTi @ (F @ (xk - self.xo) - f)
```
`@` is left-associative in Python, so the update is
`(CoFT @ FCoFTpCfi) @ (F @ (xk - xo) - f)`. -/

/-- `calculate_xkp1` of `src/pyrite.py` (total-inverse form).  Returns
`(xkp1, CoFT, FCoFTpCfi)`. -/
noncomputable def calculate_xkp1 {n m : ℕ} (xo_log : Fin n → ℝ) (Co_log : Matrix (Fin n) (Fin n) ℝ)
    (Cf : Matrix (Fin m) (Fin m) ℝ) (xk : Fin n → ℝ) (f : Fin m → ℝ)
    (F : Matrix (Fin m) (Fin n) ℝ) :
    (Fin n → ℝ) × Matrix (Fin n) (Fin m) ℝ × Matrix (Fin m) (Fin m) ℝ :=
  let CoFT := Co_log * F.transpose
  let FCoFT := F * CoFT
  let FCoFTpCfi := matInv (FCoFT + Cf)
  let xkp1 := xo_log + (CoFT * FCoFTpCfi).mulVec (F.mulVec (xk - xo_log) - f)
  (xkp1, CoFT, FCoFTpCfi)

/-- `calculate_xkp1` of `src/old_code.py` (no model-error covariance). -/
noncomputable def calculate_xkp1_old {n m : ℕ} (xo : Fin n → ℝ) (Co : Matrix (Fin n) (Fin n) ℝ)
    (xk : Fin n → ℝ) (f : Fin m → ℝ) (F : Matrix (Fin m) (Fin n) ℝ) :
    (Fin n → ℝ) × Matrix (Fin n) (Fin m) ℝ × Matrix (Fin m) (Fin m) ℝ :=
  let CoFT := Co * F.transpose
  let FCoFT := F * CoFT
  let FCoFTi := matInv FCoFT
  let xkp1 := xo + (CoFT * FCoFTi).mulVec (F.mulVec (xk - xo) - f)
  (xkp1, CoFT, FCoFTi)

/-- C1: at every ATI iteration, the next estimate equals
`xo + Co·Fᵗ·(F·Co·Fᵗ[+Cf])⁻¹·(F·(xk − xo) − f)`: with `Cf` in the
model-error (log) variant of `src/pyrite.py`, without it in
`src/old_code.py`. -/
theorem ati_update_matches_spec {n m : ℕ} (xo : Fin n → ℝ) (Co : Matrix (Fin n) (Fin n) ℝ)
    (Cf : Matrix (Fin m) (Fin m) ℝ) (xk : Fin n → ℝ) (f : Fin m → ℝ)
    (F : Matrix (Fin m) (Fin n) ℝ)
    (xo' : Fin n → ℝ) (Co' : Matrix (Fin n) (Fin n) ℝ) (xk' : Fin n → ℝ)
    (f' : Fin m → ℝ) (F' : Matrix (Fin m) (Fin n) ℝ) :
    (calculate_xkp1 xo Co Cf xk f F).1
      = xo + (Co * F.transpose).mulVec
          ((matInv (F * Co * F.transpose + Cf)).mulVec (F.mulVec (xk - xo) - f))
    ∧ (calculate_xkp1_old xo' Co' xk' f' F').1
      = xo' + (Co' * F'.transpose).mulVec
          ((matInv (F' * Co' * F'.transpose)).mulVec (F'.mulVec (xk' - xo') - f')) := by
  constructor
  · show xo + ((Co * F.transpose) * matInv (F * (Co * F.transpose) + Cf)).mulVec
        (F.mulVec (xk - xo) - f) = _
    rw [← Matrix.mul_assoc F Co F.transpose, ← Matrix.mulVec_mulVec]
  · show xo' + ((Co' * F'.transpose) * matInv (F' * (Co' * F'.transpose))).mulVec
        (F'.mulVec (xk' - xo') - f') = _
    rw [← Matrix.mul_assoc F' Co' F'.transpose, ← Matrix.mulVec_mulVec]

/-! ## Posterior covariance formulas

`src/old_code.py` (`unpack_state_estimates`, lines 553–561):
`Ckp1 = run.Co - CoFT @ FCoFTi @ F @ run.Co`.

`src/pyrite.py` (`unlog_state_estimates`, lines 554–580):
`Ckp1 = ((Id - CoFT @ FCoFTpCfi @ F) @ Co_log @ (Id - F.T @ FCoFTpCfi @ F @ Co_log))`. -/

/-- The posterior covariance computed by `unpack_state_estimates` in
`src/old_code.py`, as a formula in `Co` and the final Jacobian `F`. -/
noncomputable def posterior_cov_old {n m : ℕ} (Co : Matrix (Fin n) (Fin n) ℝ)
    (F : Matrix (Fin m) (Fin n) ℝ) : Matrix (Fin n) (Fin n) ℝ :=
  let CoFT := Co * F.transpose
  let FCoFTi := matInv (F * CoFT)
  Co - CoFT * FCoFTi * F * Co

/-- The posterior covariance computed by `unlog_state_estimates` in
`src/pyrite.py`, as a formula in `Co_log`, the final Jacobian `F` and `Cf`. -/
noncomputable def posterior_cov_log {n m : ℕ} (Co_log : Matrix (Fin n) (Fin n) ℝ)
    (F : Matrix (Fin m) (Fin n) ℝ) (Cf : Matrix (Fin m) (Fin m) ℝ) :
    Matrix (Fin n) (Fin n) ℝ :=
  let CoFT := Co_log * F.transpose
  let FCoFTpCfi := matInv (F * CoFT + Cf)
  (1 - CoFT * FCoFTpCfi * F) * Co_log * (1 - F.transpose * FCoFTpCfi * F * Co_log)

/-! ## The ATI iteration loops

`src/pyrite.py` `ATI` (lines 506–609): log-parameterized, model-error
covariance `Cf`, tolerance `0.01`, `max_iterations = 25`, convergence
checked at every iteration, cost evaluated at `xk`.

`src/old_code.py` `ATI` (lines 485–590): linear-domain, no `Cf`,
tolerance `10**-6`, `max_iterations = 100`, convergence checked only
when `count > 0`, cost evaluated at `xkp1`.

The evaluator `self.evaluate_model_equations(xk, return_F=True, ...)` is
passed in as a function argument `eval`; the mutable fields of
`PyriteModelRun` that the loop touches are threaded as a `RunState`. -/

/-- The fields of `PyriteModelRun` mutated by the ATI loop
(initialized to `[]`, `[]`, `False` in `PyriteModelRun.__init__`). -/
structure RunState where
  cost_evolution : List ℝ
  convergence_evolution : List ℝ
  converged : Bool

/-- A fresh `PyriteModelRun`: empty traces, `converged = False`. -/
def RunState.fresh : RunState := ⟨[], [], false⟩

/-- What `find_solution` returns in both variants:
`F, xkp1, CoFT, FCoFTpCfi` (resp. `FCoFTi`) of the last executed
iteration, together with the run state. -/
structure ATIResult (n m : ℕ) where
  F : Matrix (Fin m) (Fin (n + 1)) ℝ
  xkp1 : Fin (n + 1) → ℝ
  CoFT : Matrix (Fin (n + 1)) (Fin m) ℝ
  FCoFTinv : Matrix (Fin m) (Fin m) ℝ
  run : RunState

/-- `np.max` over a (nonempty) vector. -/
def npMax {k : ℕ} (v : Fin (k + 1) → ℝ) : ℝ :=
  (Finset.univ : Finset (Fin (k + 1))).sup' ⟨0, Finset.mem_univ 0⟩ v

/-- `check_convergence` of `src/pyrite.py` (lines 517–526): relative
change of the exponentiated (linear-domain) values, tolerance `0.01`;
the maximum change is appended to `run.convergence_evolution`. -/
noncomputable def check_convergence {k : ℕ} (run : RunState) (xk xkp1 : Fin (k + 1) → ℝ) :
    Bool × RunState :=
  let max_change_limit : ℝ := 0.01
  let change : Fin (k + 1) → ℝ :=
    fun i => |(Real.exp (xkp1 i) - Real.exp (xk i)) / Real.exp (xk i)|
  let run' : RunState :=
    { run with convergence_evolution := run.convergence_evolution ++ [npMax change] }
  (if npMax change < max_change_limit then true else false, run')

/-- `check_convergence` of `src/old_code.py` (lines 513–527): relative
change of the state values themselves, tolerance `10**-6`. -/
noncomputable def check_convergence_old {k : ℕ} (run : RunState) (xk xkp1 : Fin (k + 1) → ℝ) :
    Bool × RunState :=
  let max_change_limit : ℝ := 1 / 1000000
  let change : Fin (k + 1) → ℝ := fun i => |(xkp1 i - xk i) / xk i|
  let run' : RunState :=
    { run with convergence_evolution := run.convergence_evolution ++ [npMax change] }
  (if npMax change < max_change_limit then true else false, run')

/-- `calculate_xkp1` of `src/pyrite.py` with `np.linalg.inv` modelled as
fallible (`LinAlgError` on a singular matrix). -/
noncomputable def calculate_xkp1E {n m : ℕ} (xo_log : Fin n → ℝ)
    (Co_log : Matrix (Fin n) (Fin n) ℝ) (Cf : Matrix (Fin m) (Fin m) ℝ)
    (xk : Fin n → ℝ) (f : Fin m → ℝ) (F : Matrix (Fin m) (Fin n) ℝ) :
    Except String ((Fin n → ℝ) × Matrix (Fin n) (Fin m) ℝ × Matrix (Fin m) (Fin m) ℝ) := do
  let CoFT := Co_log * F.transpose
  let FCoFT := F * CoFT
  let FCoFTpCfi ← npLinalgInv (FCoFT + Cf)
  pure (xo_log + (CoFT * FCoFTpCfi).mulVec (F.mulVec (xk - xo_log) - f), CoFT, FCoFTpCfi)

/-- `calculate_xkp1` of `src/old_code.py`, fallible-inverse form. -/
noncomputable def calculate_xkp1_oldE {n m : ℕ} (xo : Fin n → ℝ)
    (Co : Matrix (Fin n) (Fin n) ℝ) (xk : Fin n → ℝ) (f : Fin m → ℝ)
    (F : Matrix (Fin m) (Fin n) ℝ) :
    Except String ((Fin n → ℝ) × Matrix (Fin n) (Fin m) ℝ × Matrix (Fin m) (Fin m) ℝ) := do
  let CoFT := Co * F.transpose
  let FCoFT := F * CoFT
  let FCoFTi ← npLinalgInv FCoFT
  pure (xo + (CoFT * FCoFTi).mulVec (F.mulVec (xk - xo) - f), CoFT, FCoFTi)

/-- `calculate_cost` of `src/pyrite.py` (lines 528–533):
`(xk − xo)ᵗ·Co⁻¹·(xk − xo) + fᵗ·Cf⁻¹·f`, appended to
`run.cost_evolution`; both inversions may raise. -/
noncomputable def calculate_cost {n m : ℕ} (xo_log : Fin n → ℝ)
    (Co_log : Matrix (Fin n) (Fin n) ℝ) (Cf : Matrix (Fin m) (Fin m) ℝ)
    (xk : Fin n → ℝ) (f : Fin m → ℝ) (run : RunState) : Except String RunState := do
  let Coi ← npLinalgInv Co_log
  let Cfi ← npLinalgInv Cf
  let cost := Matrix.dotProduct (Matrix.vecMul (xk - xo_log) Coi) (xk - xo_log)
      + Matrix.dotProduct (Matrix.vecMul f Cfi) f
  pure { run with cost_evolution := run.cost_evolution ++ [cost] }

/-- `calculate_cost` of `src/old_code.py` (lines 532–537): evaluated at
the updated vector, no model-error term. -/
noncomputable def calculate_cost_old {n : ℕ} (xo : Fin n → ℝ)
    (Co : Matrix (Fin n) (Fin n) ℝ) (x : Fin n → ℝ) (run : RunState) :
    Except String RunState := do
  let Coi ← npLinalgInv Co
  let cost := Matrix.dotProduct (Matrix.vecMul (x - xo) Coi) (x - xo)
  pure { run with cost_evolution := run.cost_evolution ++ [cost] }

/-- The body of `find_solution` of `src/pyrite.py` (lines 535–552):
one iteration evaluates `f, F` at `xk`, forms `xkp1`, records the cost,
assigns `run.converged` from `check_convergence` (at *every* iteration)
and either breaks or continues with `fuel` remaining iterations. -/
noncomputable def ati_go {n m : ℕ}
    (eval : (Fin (n + 1) → ℝ) → (Fin m → ℝ) × Matrix (Fin m) (Fin (n + 1)) ℝ)
    (xo_log : Fin (n + 1) → ℝ) (Co_log : Matrix (Fin (n + 1)) (Fin (n + 1)) ℝ)
    (Cf : Matrix (Fin m) (Fin m) ℝ) :
    ℕ → (Fin (n + 1) → ℝ) → RunState → Except String (ATIResult n m)
  | fuel, xk, run => do
    let fF := eval xk
    let f := fF.1
    let F := fF.2
    let upd ← calculate_xkp1E xo_log Co_log Cf xk f F
    let xkp1 := upd.1
    let CoFT := upd.2.1
    let FCoFTpCfi := upd.2.2
    let run1 ← calculate_cost xo_log Co_log Cf xk f run
    let cc := check_convergence run1 xk xkp1
    let conv := cc.1
    let run2 := cc.2
    let run3 : RunState := { run2 with converged := conv }
    if conv then pure ⟨F, xkp1, CoFT, FCoFTpCfi, run3⟩
    else
      match fuel with
      | 0 => pure ⟨F, xkp1, CoFT, FCoFTpCfi, run3⟩
      | fuel' + 1 => ati_go eval xo_log Co_log Cf fuel' xkp1 run3

/-- `find_solution` of `src/pyrite.py`: `max_iterations = 25`, starting
from `xk = xo_log`. -/
noncomputable def find_solution {n m : ℕ}
    (eval : (Fin (n + 1) → ℝ) → (Fin m → ℝ) × Matrix (Fin m) (Fin (n + 1)) ℝ)
    (xo_log : Fin (n + 1) → ℝ) (Co_log : Matrix (Fin (n + 1)) (Fin (n + 1)) ℝ)
    (Cf : Matrix (Fin m) (Fin m) ℝ) (run : RunState) : Except String (ATIResult n m) :=
  ati_go eval xo_log Co_log Cf 24 xo_log run

/-- The body of `find_solution` of `src/old_code.py` (lines 538–551):
as above, but the cost is evaluated at `xkp1` and the convergence check
runs only when `count > 0`. -/
noncomputable def ati_go_old {n m : ℕ}
    (eval : (Fin (n + 1) → ℝ) → (Fin m → ℝ) × Matrix (Fin m) (Fin (n + 1)) ℝ)
    (xo : Fin (n + 1) → ℝ) (Co : Matrix (Fin (n + 1)) (Fin (n + 1)) ℝ) :
    ℕ → ℕ → (Fin (n + 1) → ℝ) → RunState → Except String (ATIResult n m)
  | fuel, count, xk, run => do
    let fF := eval xk
    let f := fF.1
    let F := fF.2
    let upd ← calculate_xkp1_oldE xo Co xk f F
    let xkp1 := upd.1
    let CoFT := upd.2.1
    let FCoFTi := upd.2.2
    let run1 ← calculate_cost_old xo Co xkp1 run
    if 0 < count then
      let cc := check_convergence_old run1 xk xkp1
      let conv := cc.1
      let run2 := cc.2
      let run3 : RunState := { run2 with converged := conv }
      if conv then pure ⟨F, xkp1, CoFT, FCoFTi, run3⟩
      else
        match fuel with
        | 0 => pure ⟨F, xkp1, CoFT, FCoFTi, run3⟩
        | fuel' + 1 => ati_go_old eval xo Co fuel' (count + 1) xkp1 run3
    else
      match fuel with
      | 0 => pure ⟨F, xkp1, CoFT, FCoFTi, run1⟩
      | fuel' + 1 => ati_go_old eval xo Co fuel' (count + 1) xkp1 run1

/-- `find_solution` of `src/old_code.py`: `max_iterations = 100`,
starting from `xk = xo`, `count = 0`. -/
noncomputable def find_solution_old {n m : ℕ}
    (eval : (Fin (n + 1) → ℝ) → (Fin m → ℝ) × Matrix (Fin m) (Fin (n + 1)) ℝ)
    (xo : Fin (n + 1) → ℝ) (Co : Matrix (Fin (n + 1)) (Fin (n + 1)) ℝ)
    (run : RunState) : Except String (ATIResult n m) :=
  ati_go_old eval xo Co 99 0 xo run

/-- `unlog_state_estimates` of `src/pyrite.py` (lines 554–580): the
posterior covariance `Ckp1`, the lognormal back-transform of mean and
error, and the posterior covariance of the back-transformed estimates.
Returns `(xhat, xhat_e, Ckp1, cvm, run)`. -/
noncomputable def unlog_state_estimates {n m : ℕ}
    (eval : (Fin (n + 1) → ℝ) → (Fin m → ℝ) × Matrix (Fin m) (Fin (n + 1)) ℝ)
    (xo_log : Fin (n + 1) → ℝ) (Co_log : Matrix (Fin (n + 1)) (Fin (n + 1)) ℝ)
    (Cf : Matrix (Fin m) (Fin m) ℝ) (run : RunState) :
    Except String ((Fin (n + 1) → ℝ) × (Fin (n + 1) → ℝ)
      × Matrix (Fin (n + 1)) (Fin (n + 1)) ℝ × Matrix (Fin (n + 1)) (Fin (n + 1)) ℝ
      × RunState) :=
  (find_solution eval xo_log Co_log Cf run).map fun r =>
    let Ckp1 := (1 - r.CoFT * r.FCoFTinv * r.F) * Co_log
        * (1 - r.F.transpose * r.FCoFTinv * r.F * Co_log)
    let expected_vals_log := r.xkp1
    let variances_log : Fin (n + 1) → ℝ := fun i => Ckp1 i i
    let xhat : Fin (n + 1) → ℝ :=
      fun i => Real.exp (expected_vals_log i + variances_log i / 2)
    let xhat_e : Fin (n + 1) → ℝ :=
      fun i => Real.sqrt (Real.exp (2 * expected_vals_log i + variances_log i)
          * (Real.exp (variances_log i) - 1))
    let cvm : Matrix (Fin (n + 1)) (Fin (n + 1)) ℝ := Matrix.of fun i j =>
      Real.exp (expected_vals_log i + expected_vals_log j)
        * Real.exp ((variances_log i + variances_log j) / 2)
        * (Real.exp (Ckp1 i j) - 1)
    (xhat, xhat_e, Ckp1, cvm, r.run)

/-- `unpack_state_estimates` of `src/old_code.py` (lines 553–561):
`Ckp1 = Co − CoFT·FCoFTi·F·Co`, `xhat = xkp1`,
`xhat_e = sqrt(diag Ckp1)`.  Returns `(xhat, xhat_e, Ckp1, run)`. -/
noncomputable def unpack_state_estimates_old {n m : ℕ}
    (eval : (Fin (n + 1) → ℝ) → (Fin m → ℝ) × Matrix (Fin m) (Fin (n + 1)) ℝ)
    (xo : Fin (n + 1) → ℝ) (Co : Matrix (Fin (n + 1)) (Fin (n + 1)) ℝ)
    (run : RunState) :
    Except String ((Fin (n + 1) → ℝ) × (Fin (n + 1) → ℝ)
      × Matrix (Fin (n + 1)) (Fin (n + 1)) ℝ × RunState) :=
  (find_solution_old eval xo Co run).map fun r =>
    let Ckp1 := Co - r.CoFT * r.FCoFTinv * r.F * Co
    let xhat := r.xkp1
    let xhat_e : Fin (n + 1) → ℝ := fun i => Real.sqrt (Ckp1 i i)
    (xhat, xhat_e, Ckp1, r.run)

/-- `invert_station` of `src/scripts/geotraces/run.py` (lines 88–99): the
solver call is wrapped in `try/except np.linalg.LinAlgError`; a
`Singular matrix` error makes the worker skip this configuration
(return, modelled as `none`), any other error is re-raised, and a
successful solve continues with the result.  (The exact `src.ati`
module that `run.py` binds is not in the sources; the in-repo
`find_solution` of `src/pyrite.py` stands in for it.) -/
noncomputable def invert_station {n m : ℕ}
    (eval : (Fin (n + 1) → ℝ) → (Fin m → ℝ) × Matrix (Fin m) (Fin (n + 1)) ℝ)
    (xo : Fin (n + 1) → ℝ) (Co : Matrix (Fin (n + 1)) (Fin (n + 1)) ℝ)
    (Cf : Matrix (Fin m) (Fin m) ℝ) : Except String (Option (ATIResult n m)) :=
  match find_solution eval xo Co Cf RunState.fresh with
  | Except.error e => if e = "Singular matrix" then Except.ok none else Except.error e
  | Except.ok r => Except.ok (some r)

/-- C4: a singular `F·Co·Fᵗ+Cf` in the first ATI iteration makes the
solver raise the distinguishable `Singular matrix` error, which
propagates to the caller instead of being swallowed or turned into a
result vector; `invert_station` skips exactly the failing
configurations (`none`) and passes every successful solve through. -/
theorem singular_matrix_error_propagates {n m : ℕ}
    (eval : (Fin (n + 1) → ℝ) → (Fin m → ℝ) × Matrix (Fin m) (Fin (n + 1)) ℝ)
    (xo_log : Fin (n + 1) → ℝ) (Co_log : Matrix (Fin (n + 1)) (Fin (n + 1)) ℝ)
    (Cf : Matrix (Fin m) (Fin m) ℝ) (f : Fin m → ℝ)
    (F : Matrix (Fin m) (Fin (n + 1)) ℝ)
    (hev : eval xo_log = (f, F))
    (hdet : (F * (Co_log * F.transpose) + Cf).det = 0) :
    find_solution eval xo_log Co_log Cf RunState.fresh = Except.error "Singular matrix"
    ∧ invert_station eval xo_log Co_log Cf = Except.ok none
    ∧ ∀ {n' m' : ℕ}
        (eval' : (Fin (n' + 1) → ℝ) → (Fin m' → ℝ) × Matrix (Fin m') (Fin (n' + 1)) ℝ)
        (xo' : Fin (n' + 1) → ℝ) (Co' : Matrix (Fin (n' + 1)) (Fin (n' + 1)) ℝ)
        (Cf' : Matrix (Fin m') (Fin m') ℝ) (r : ATIResult n' m'),
        find_solution eval' xo' Co' Cf' RunState.fresh = Except.ok r →
        invert_station eval' xo' Co' Cf' = Except.ok (some r) := by
  have herr : find_solution eval xo_log Co_log Cf RunState.fresh
      = Except.error "Singular matrix" := by
    unfold find_solution
    rw [ati_go]
    simp only [hev]
    have h1 : calculate_xkp1E xo_log Co_log Cf xo_log f F
        = Except.error "Singular matrix" := by
      unfold calculate_xkp1E npLinalgInv
      simp [hdet]
    rw [h1]
    rfl
  refine ⟨herr, ?_, ?_⟩
  · unfold invert_station
    rw [herr]
    simp
  · intro n' m' eval' xo' Co' Cf' r hr
    unfold invert_station
    rw [hr]

/-! ## Basic lemmas about the loop components -/

theorem exceptBind_ok {ε α β : Type} (a : α) (g : α → Except ε β) :
    (Except.ok a >>= g : Except ε β) = g a := rfl

theorem exceptBind_err {ε α β : Type} (e : ε) (g : α → Except ε β) :
    ((Except.error e : Except ε α) >>= g) = Except.error e := rfl

theorem npMax_const {k : ℕ} (c : ℝ) : npMax (fun _ : Fin (k + 1) => c) = c := by
  unfold npMax
  exact Finset.sup'_const _ c

theorem check_convergence_self {k : ℕ} (run : RunState) (xk : Fin (k + 1) → ℝ) :
    check_convergence run xk xk
      = (true, { run with convergence_evolution := run.convergence_evolution ++ [0] }) := by
  unfold check_convergence
  have hch : (fun i : Fin (k + 1) =>
      |(Real.exp (xk i) - Real.exp (xk i)) / Real.exp (xk i)|) = fun _ => (0 : ℝ) := by
    funext i
    simp
  simp only [hch, npMax_const]
  norm_num

theorem check_convergence_old_self {k : ℕ} (run : RunState) (xk : Fin (k + 1) → ℝ) :
    check_convergence_old run xk xk
      = (true, { run with convergence_evolution := run.convergence_evolution ++ [0] }) := by
  unfold check_convergence_old
  have hch : (fun i : Fin (k + 1) => |(xk i - xk i) / xk i|) = fun _ => (0 : ℝ) := by
    funext i
    simp
  simp only [hch, npMax_const]
  norm_num

theorem calculate_cost_zero {n m : ℕ} (xo_log : Fin n → ℝ)
    (Co_log : Matrix (Fin n) (Fin n) ℝ) (Cf : Matrix (Fin m) (Fin m) ℝ)
    (run : RunState) (hCo : Co_log.det ≠ 0) (hCf : Cf.det ≠ 0) :
    calculate_cost xo_log Co_log Cf xo_log 0 run
      = Except.ok { run with cost_evolution := run.cost_evolution ++ [0] } := by
  unfold calculate_cost
  rw [npLinalgInv_ok _ hCo, npLinalgInv_ok _ hCf]
  simp [exceptBind_ok, Matrix.zero_vecMul, Matrix.zero_dotProduct, sub_self]

theorem calculate_cost_old_zero {n : ℕ} (xo : Fin n → ℝ)
    (Co : Matrix (Fin n) (Fin n) ℝ) (run : RunState) (hCo : Co.det ≠ 0) :
    calculate_cost_old xo Co xo run
      = Except.ok { run with cost_evolution := run.cost_evolution ++ [0] } := by
  unfold calculate_cost_old
  rw [npLinalgInv_ok _ hCo]
  simp [exceptBind_ok, Matrix.zero_vecMul, Matrix.zero_dotProduct, sub_self]

theorem calculate_xkp1E_fixed {n m : ℕ} (xo_log : Fin n → ℝ)
    (Co_log : Matrix (Fin n) (Fin n) ℝ) (Cf : Matrix (Fin m) (Fin m) ℝ)
    (F : Matrix (Fin m) (Fin n) ℝ)
    (hFCF : (F * (Co_log * F.transpose) + Cf).det ≠ 0) :
    calculate_xkp1E xo_log Co_log Cf xo_log 0 F
      = Except.ok (xo_log, Co_log * F.transpose,
          matInv (F * (Co_log * F.transpose) + Cf)) := by
  unfold calculate_xkp1E
  simp only [npLinalgInv_ok _ hFCF, exceptBind_ok, sub_self, Matrix.mulVec_zero,
    Matrix.mulVec_zero, sub_zero, add_zero]
  rfl

/-- If the residual at the prior is zero (and the matrices inverted in
the first iteration are nonsingular), the first `src/pyrite.py` ATI
iteration maps the prior to itself, records zero cost and zero maximum
change, declares convergence and breaks immediately. -/
theorem ati_log_prior_fixed {n m : ℕ}
    (eval : (Fin (n + 1) → ℝ) → (Fin m → ℝ) × Matrix (Fin m) (Fin (n + 1)) ℝ)
    (xo_log : Fin (n + 1) → ℝ) (Co_log : Matrix (Fin (n + 1)) (Fin (n + 1)) ℝ)
    (Cf : Matrix (Fin m) (Fin m) ℝ) (F : Matrix (Fin m) (Fin (n + 1)) ℝ)
    (hev : eval xo_log = (0, F))
    (hFCF : (F * (Co_log * F.transpose) + Cf).det ≠ 0)
    (hCo : Co_log.det ≠ 0) (hCf : Cf.det ≠ 0) :
    find_solution eval xo_log Co_log Cf RunState.fresh
      = Except.ok ⟨F, xo_log, Co_log * F.transpose,
          matInv (F * (Co_log * F.transpose) + Cf), ⟨[0], [0], true⟩⟩ := by
  unfold find_solution
  rw [ati_go]
  simp only [hev]
  rw [calculate_xkp1E_fixed xo_log Co_log Cf F hFCF, exceptBind_ok]
  rw [calculate_cost_zero xo_log Co_log Cf RunState.fresh hCo hCf, exceptBind_ok]
  simp only [check_convergence_self]
  rfl

theorem calculate_xkp1_oldE_fixed {n m : ℕ} (xo : Fin n → ℝ)
    (Co : Matrix (Fin n) (Fin n) ℝ) (F : Matrix (Fin m) (Fin n) ℝ)
    (hFCF : (F * (Co * F.transpose)).det ≠ 0) :
    calculate_xkp1_oldE xo Co xo 0 F
      = Except.ok (xo, Co * F.transpose, matInv (F * (Co * F.transpose))) := by
  unfold calculate_xkp1_oldE
  simp only [npLinalgInv_ok _ hFCF, exceptBind_ok, sub_self, Matrix.mulVec_zero,
    sub_zero, add_zero]
  rfl

/-- In `src/old_code.py`, a zero residual at the prior keeps the state
at the prior; the convergence check is skipped at `count = 0`, so the
loop breaks only at the end of the *second* iteration, with two cost
entries and a single convergence entry. -/
theorem ati_old_prior_fixed {n m : ℕ}
    (eval : (Fin (n + 1) → ℝ) → (Fin m → ℝ) × Matrix (Fin m) (Fin (n + 1)) ℝ)
    (xo : Fin (n + 1) → ℝ) (Co : Matrix (Fin (n + 1)) (Fin (n + 1)) ℝ)
    (F : Matrix (Fin m) (Fin (n + 1)) ℝ)
    (hev : eval xo = (0, F))
    (hFCF : (F * (Co * F.transpose)).det ≠ 0)
    (hCo : Co.det ≠ 0) :
    find_solution_old eval xo Co RunState.fresh
      = Except.ok ⟨F, xo, Co * F.transpose, matInv (F * (Co * F.transpose)),
          ⟨[0, 0], [0], true⟩⟩ := by
  unfold find_solution_old
  rw [ati_go_old]
  simp only [hev]
  rw [calculate_xkp1_oldE_fixed xo Co F hFCF, exceptBind_ok]
  rw [calculate_cost_old_zero xo Co RunState.fresh hCo, exceptBind_ok]
  norm_num
  rw [ati_go_old]
  simp only [hev]
  rw [calculate_xkp1_oldE_fixed xo Co F hFCF, exceptBind_ok]
  rw [calculate_cost_old_zero xo Co _ hCo, exceptBind_ok]
  simp only [check_convergence_old_self]
  norm_num
  rfl

/-- A one-element demonstration model: a single state element with unit
prior covariance, a single equation with residual constantly zero and
Jacobian `1`, and unit model-error covariance. -/
noncomputable def demoEval : (Fin 1 → ℝ) → (Fin 1 → ℝ) × Matrix (Fin 1) (Fin 1) ℝ :=
  fun _ => (0, 1)

theorem demo_det_one : ((1 : Matrix (Fin 1) (Fin 1) ℝ)).det ≠ 0 := by
  simp

theorem demo_det_FCF : (((1 : Matrix (Fin 1) (Fin 1) ℝ))
    * ((1 : Matrix (Fin 1) (Fin 1) ℝ) * (1 : Matrix (Fin 1) (Fin 1) ℝ).transpose)).det ≠ 0 := by
  simp

theorem demo_det_FCF_Cf : (((1 : Matrix (Fin 1) (Fin 1) ℝ))
    * ((1 : Matrix (Fin 1) (Fin 1) ℝ) * (1 : Matrix (Fin 1) (Fin 1) ℝ).transpose)
    + (1 : Matrix (Fin 1) (Fin 1) ℝ)).det ≠ 0 := by
  rw [Matrix.det_fin_one]
  simp [Matrix.add_apply, Matrix.one_apply_eq]

/-- The concrete outcome of `find_solution` on the demonstration model. -/
noncomputable def demoRes : ATIResult 0 1 :=
  ⟨1, 0, (1 : Matrix (Fin 1) (Fin 1) ℝ) * (1 : Matrix (Fin 1) (Fin 1) ℝ).transpose,
    matInv ((1 : Matrix (Fin 1) (Fin 1) ℝ)
      * ((1 : Matrix (Fin 1) (Fin 1) ℝ) * (1 : Matrix (Fin 1) (Fin 1) ℝ).transpose)
      + (1 : Matrix (Fin 1) (Fin 1) ℝ)), ⟨[0], [0], true⟩⟩

theorem demo_find : find_solution demoEval 0 1 1 RunState.fresh = Except.ok demoRes :=
  ati_log_prior_fixed demoEval 0 1 1 1 rfl demo_det_FCF_Cf demo_det_one demo_det_one

/-- The concrete outcome of `find_solution_old` on the demonstration model. -/
noncomputable def demoResOld : ATIResult 0 1 :=
  ⟨1, 0, (1 : Matrix (Fin 1) (Fin 1) ℝ) * (1 : Matrix (Fin 1) (Fin 1) ℝ).transpose,
    matInv ((1 : Matrix (Fin 1) (Fin 1) ℝ)
      * ((1 : Matrix (Fin 1) (Fin 1) ℝ) * (1 : Matrix (Fin 1) (Fin 1) ℝ).transpose)),
    ⟨[0, 0], [0], true⟩⟩

theorem demo_find_old :
    find_solution_old demoEval 0 1 RunState.fresh = Except.ok demoResOld :=
  ati_old_prior_fixed demoEval 0 1 1 rfl demo_det_FCF demo_det_one

/-- C8: if `Cf` is (near-)zero — any nonsingular `Cf`, no smallness
needed — and the prior satisfies every model equation (`f(xo) = 0`),
then the ATI update maps the prior to itself and the solver of
`src/pyrite.py` converges in exactly one iteration (one cost entry, one
convergence entry, `converged = True`) with the prior as its state
estimate and zero cost. -/
theorem prior_recovery {n m : ℕ}
    (eval : (Fin (n + 1) → ℝ) → (Fin m → ℝ) × Matrix (Fin m) (Fin (n + 1)) ℝ)
    (xo_log : Fin (n + 1) → ℝ) (Co_log : Matrix (Fin (n + 1)) (Fin (n + 1)) ℝ)
    (Cf : Matrix (Fin m) (Fin m) ℝ) (F : Matrix (Fin m) (Fin (n + 1)) ℝ)
    (hev : eval xo_log = (0, F))
    (hFCF : (F * (Co_log * F.transpose) + Cf).det ≠ 0)
    (hCo : Co_log.det ≠ 0) (hCf : Cf.det ≠ 0) :
    (calculate_xkp1 xo_log Co_log Cf xo_log 0 F).1 = xo_log
    ∧ find_solution eval xo_log Co_log Cf RunState.fresh
        = Except.ok ⟨F, xo_log, Co_log * F.transpose,
            matInv (F * (Co_log * F.transpose) + Cf), ⟨[0], [0], true⟩⟩ := by
  constructor
  · unfold calculate_xkp1
    simp [sub_self, Matrix.mulVec_zero]
  · exact ati_log_prior_fixed eval xo_log Co_log Cf F hev hFCF hCo hCf

/-- Witness for `prior_recovery` at the demonstration model. -/
theorem prior_recovery_witness :
    (calculate_xkp1 (n := 1) (m := 1) 0 1 1 0 0 1).1 = 0
    ∧ find_solution demoEval 0 1 1 RunState.fresh
        = Except.ok ⟨1, 0, (1 : Matrix (Fin 1) (Fin 1) ℝ) * (1 : Matrix (Fin 1) (Fin 1) ℝ).transpose,
            matInv ((1 : Matrix (Fin 1) (Fin 1) ℝ)
              * ((1 : Matrix (Fin 1) (Fin 1) ℝ) * (1 : Matrix (Fin 1) (Fin 1) ℝ).transpose)
              + (1 : Matrix (Fin 1) (Fin 1) ℝ)), ⟨[0], [0], true⟩⟩ :=
  prior_recovery demoEval 0 1 1 1 rfl demo_det_FCF_Cf demo_det_one demo_det_one

/-- Counterexample to "the convergence test is evaluated only after the
first iteration": on the demonstration model the `src/pyrite.py` loop
executes exactly one iteration (one cost entry) and that very iteration
already appends to the convergence trace and sets `converged`. -/
theorem log_variant_checks_convergence_in_first_iteration :
    (find_solution demoEval 0 1 1 RunState.fresh).map
        (fun r => (r.run.cost_evolution.length, r.run.convergence_evolution.length,
          r.run.converged))
      = Except.ok (1, 1, true) := by
  rw [demo_find]
  rfl

/-! ## Trace bookkeeping: how many iterations run, and when the
convergence test is evaluated -/

theorem calculate_cost_ok_shape {n m : ℕ} {xo_log : Fin n → ℝ}
    {Co_log : Matrix (Fin n) (Fin n) ℝ} {Cf : Matrix (Fin m) (Fin m) ℝ}
    {xk : Fin n → ℝ} {f : Fin m → ℝ} {run run1 : RunState}
    (h : calculate_cost xo_log Co_log Cf xk f run = Except.ok run1) :
    ∃ c, run1 = ⟨run.cost_evolution ++ [c], run.convergence_evolution, run.converged⟩ := by
  unfold calculate_cost npLinalgInv at h
  split_ifs at h <;>
    simp only [Bind.bind, Except.bind, pure, Except.pure, Except.ok.injEq] at h <;>
    first
      | exact Except.noConfusion h
      | exact ⟨_, h.symm⟩

theorem calculate_cost_old_ok_shape {n : ℕ} {xo : Fin n → ℝ}
    {Co : Matrix (Fin n) (Fin n) ℝ} {x : Fin n → ℝ} {run run1 : RunState}
    (h : calculate_cost_old xo Co x run = Except.ok run1) :
    ∃ c, run1 = ⟨run.cost_evolution ++ [c], run.convergence_evolution, run.converged⟩ := by
  unfold calculate_cost_old npLinalgInv at h
  split_ifs at h <;>
    simp only [Bind.bind, Except.bind, pure, Except.pure, Except.ok.injEq] at h <;>
    first
      | exact Except.noConfusion h
      | exact ⟨_, h.symm⟩

theorem check_convergence_run_shape {k : ℕ} (run : RunState) (xk xkp1 : Fin (k + 1) → ℝ) :
    ∃ c, (check_convergence run xk xkp1).2
      = ⟨run.cost_evolution, run.convergence_evolution ++ [c], run.converged⟩ :=
  ⟨_, rfl⟩

theorem check_convergence_old_run_shape {k : ℕ} (run : RunState)
    (xk xkp1 : Fin (k + 1) → ℝ) :
    ∃ c, (check_convergence_old run xk xkp1).2
      = ⟨run.cost_evolution, run.convergence_evolution ++ [c], run.converged⟩ :=
  ⟨_, rfl⟩

/-- Trace bookkeeping for the `src/pyrite.py` loop: a successful run
executes between `1` and `fuel + 1` iterations, appends one cost entry
*and* one convergence entry per iteration (the check runs at every
iteration), and ends with `converged = False` only if it used all its
iterations. -/
theorem ati_go_trace {n m : ℕ}
    (eval : (Fin (n + 1) → ℝ) → (Fin m → ℝ) × Matrix (Fin m) (Fin (n + 1)) ℝ)
    (xo_log : Fin (n + 1) → ℝ) (Co_log : Matrix (Fin (n + 1)) (Fin (n + 1)) ℝ)
    (Cf : Matrix (Fin m) (Fin m) ℝ) :
    ∀ (fuel : ℕ) (xk : Fin (n + 1) → ℝ) (run : RunState) (r : ATIResult n m),
      ati_go eval xo_log Co_log Cf fuel xk run = Except.ok r →
      ∃ k, 1 ≤ k ∧ k ≤ fuel + 1
        ∧ r.run.cost_evolution.length = run.cost_evolution.length + k
        ∧ r.run.convergence_evolution.length = run.convergence_evolution.length + k
        ∧ (r.run.converged = false → k = fuel + 1) := by
  intro fuel
  induction fuel with
  | zero =>
    intro xk run r h
    rw [ati_go] at h
    cases hx : calculate_xkp1E xo_log Co_log Cf xk (eval xk).1 (eval xk).2 with
    | error e =>
      rw [hx] at h
      simp [Bind.bind, Except.bind] at h
    | ok p =>
      rw [hx] at h
      simp only [Bind.bind, Except.bind] at h
      cases hc : calculate_cost xo_log Co_log Cf xk (eval xk).1 run with
      | error e =>
        rw [hc] at h
        simp at h
      | ok run1 =>
        rw [hc] at h
        dsimp only [] at h
        obtain ⟨c, hrun1⟩ := calculate_cost_ok_shape hc
        subst hrun1
        obtain ⟨d, hrun2⟩ := check_convergence_run_shape
          ⟨run.cost_evolution ++ [c], run.convergence_evolution, run.converged⟩ xk p.1
        refine ⟨1, le_refl 1, le_refl 1, ?_⟩
        rcases Bool.eq_false_or_eq_true ((check_convergence
            ⟨run.cost_evolution ++ [c], run.convergence_evolution, run.converged⟩ xk p.1).1)
          with hcv | hcv <;>
          rw [hcv] at h <;>
          simp only [Bool.false_eq_true, reduceIte, pure, Except.pure,
            Except.ok.injEq] at h <;>
          cases h.symm <;>
          simp [hrun2]
  | succ fuel ih =>
    intro xk run r h
    rw [ati_go] at h
    cases hx : calculate_xkp1E xo_log Co_log Cf xk (eval xk).1 (eval xk).2 with
    | error e =>
      rw [hx] at h
      simp [Bind.bind, Except.bind] at h
    | ok p =>
      rw [hx] at h
      simp only [Bind.bind, Except.bind] at h
      cases hc : calculate_cost xo_log Co_log Cf xk (eval xk).1 run with
      | error e =>
        rw [hc] at h
        simp at h
      | ok run1 =>
        rw [hc] at h
        dsimp only [] at h
        obtain ⟨c, hrun1⟩ := calculate_cost_ok_shape hc
        subst hrun1
        obtain ⟨d, hrun2⟩ := check_convergence_run_shape
          ⟨run.cost_evolution ++ [c], run.convergence_evolution, run.converged⟩ xk p.1
        rcases Bool.eq_false_or_eq_true ((check_convergence
            ⟨run.cost_evolution ++ [c], run.convergence_evolution, run.converged⟩ xk p.1).1)
          with hcv | hcv <;> rw [hcv] at h
        · simp only [reduceIte, pure, Except.pure, Except.ok.injEq] at h
          cases h.symm
          refine ⟨1, le_refl 1, by omega, ?_, ?_, ?_⟩
          · simp [hrun2]
          · simp [hrun2]
          · intro hcf; simp at hcf
        · simp only [Bool.false_eq_true, reduceIte] at h
          obtain ⟨k, hk1, hk2, hk3, hk4, hk5⟩ := ih p.1 _ r h
          refine ⟨k + 1, by omega, by omega, ?_, ?_, ?_⟩
          · rw [hk3, hrun2]; simp; omega
          · rw [hk4, hrun2]; simp; omega
          · intro hcf; have := hk5 hcf; omega

/-- Trace bookkeeping for the `src/old_code.py` loop from `count ≥ 1`
onwards: one cost entry and one convergence entry per iteration. -/
theorem ati_go_old_trace {n m : ℕ}
    (eval : (Fin (n + 1) → ℝ) → (Fin m → ℝ) × Matrix (Fin m) (Fin (n + 1)) ℝ)
    (xo : Fin (n + 1) → ℝ) (Co : Matrix (Fin (n + 1)) (Fin (n + 1)) ℝ) :
    ∀ (fuel count : ℕ) (xk : Fin (n + 1) → ℝ) (run : RunState) (r : ATIResult n m),
      0 < count →
      ati_go_old eval xo Co fuel count xk run = Except.ok r →
      ∃ k, 1 ≤ k ∧ k ≤ fuel + 1
        ∧ r.run.cost_evolution.length = run.cost_evolution.length + k
        ∧ r.run.convergence_evolution.length = run.convergence_evolution.length + k
        ∧ (r.run.converged = false → k = fuel + 1) := by
  intro fuel
  induction fuel with
  | zero =>
    intro count xk run r hcount h
    rw [ati_go_old] at h
    simp only [Bind.bind, Except.bind] at h
    cases hx : calculate_xkp1_oldE xo Co xk (eval xk).1 (eval xk).2 with
    | error e =>
      rw [hx] at h
      simp at h
    | ok p =>
      rw [hx] at h
      dsimp only [] at h
      cases hc : calculate_cost_old xo Co p.1 run with
      | error e =>
        rw [hc] at h
        simp at h
      | ok run1 =>
        rw [hc] at h
        dsimp only [] at h
        rw [if_pos hcount] at h
        obtain ⟨c, hrun1⟩ := calculate_cost_old_ok_shape hc
        subst hrun1
        obtain ⟨d, hrun2⟩ := check_convergence_old_run_shape
          ⟨run.cost_evolution ++ [c], run.convergence_evolution, run.converged⟩ xk p.1
        refine ⟨1, le_refl 1, le_refl 1, ?_⟩
        rcases Bool.eq_false_or_eq_true ((check_convergence_old
            ⟨run.cost_evolution ++ [c], run.convergence_evolution, run.converged⟩ xk p.1).1)
          with hcv | hcv <;>
          rw [hcv] at h <;>
          simp only [Bool.false_eq_true, reduceIte, pure, Except.pure,
            Except.ok.injEq] at h <;>
          cases h.symm <;>
          simp [hrun2]
  | succ fuel ih =>
    intro count xk run r hcount h
    rw [ati_go_old] at h
    simp only [Bind.bind, Except.bind] at h
    cases hx : calculate_xkp1_oldE xo Co xk (eval xk).1 (eval xk).2 with
    | error e =>
      rw [hx] at h
      simp at h
    | ok p =>
      rw [hx] at h
      dsimp only [] at h
      cases hc : calculate_cost_old xo Co p.1 run with
      | error e =>
        rw [hc] at h
        simp at h
      | ok run1 =>
        rw [hc] at h
        dsimp only [] at h
        rw [if_pos hcount] at h
        obtain ⟨c, hrun1⟩ := calculate_cost_old_ok_shape hc
        subst hrun1
        obtain ⟨d, hrun2⟩ := check_convergence_old_run_shape
          ⟨run.cost_evolution ++ [c], run.convergence_evolution, run.converged⟩ xk p.1
        rcases Bool.eq_false_or_eq_true ((check_convergence_old
            ⟨run.cost_evolution ++ [c], run.convergence_evolution, run.converged⟩ xk p.1).1)
          with hcv | hcv <;> rw [hcv] at h
        · simp only [reduceIte, pure, Except.pure, Except.ok.injEq] at h
          cases h.symm
          refine ⟨1, le_refl 1, by omega, ?_, ?_, ?_⟩
          · simp [hrun2]
          · simp [hrun2]
          · intro hcf; simp at hcf
        · simp only [Bool.false_eq_true, reduceIte] at h
          obtain ⟨k, hk1, hk2, hk3, hk4, hk5⟩ := ih (count + 1) p.1 _ r (by omega) h
          refine ⟨k + 1, by omega, by omega, ?_, ?_, ?_⟩
          · rw [hk3, hrun2]; simp; omega
          · rw [hk4, hrun2]; simp; omega
          · intro hcf; have := hk5 hcf; omega

/-- Trace bookkeeping for a full `src/old_code.py` solve from a fresh
run: between 2 and 100 iterations, one cost entry per iteration, one
convergence entry per iteration except the first. -/
theorem find_solution_old_trace {n m : ℕ}
    (eval : (Fin (n + 1) → ℝ) → (Fin m → ℝ) × Matrix (Fin m) (Fin (n + 1)) ℝ)
    (xo : Fin (n + 1) → ℝ) (Co : Matrix (Fin (n + 1)) (Fin (n + 1)) ℝ)
    (r : ATIResult n m)
    (h : find_solution_old eval xo Co RunState.fresh = Except.ok r) :
    ∃ k, 2 ≤ k ∧ k ≤ 100 ∧ r.run.cost_evolution.length = k
      ∧ r.run.convergence_evolution.length + 1 = k
      ∧ (r.run.converged = false → k = 100) := by
  unfold find_solution_old at h
  rw [ati_go_old] at h
  simp only [Bind.bind, Except.bind] at h
  cases hx : calculate_xkp1_oldE xo Co xo (eval xo).1 (eval xo).2 with
  | error e =>
    rw [hx] at h
    simp at h
  | ok p =>
    rw [hx] at h
    dsimp only [] at h
    cases hc : calculate_cost_old xo Co p.1 RunState.fresh with
    | error e =>
      rw [hc] at h
      simp at h
    | ok run1 =>
      rw [hc] at h
      dsimp only [] at h
      rw [if_neg (by omega : ¬ 0 < 0)] at h
      obtain ⟨c, hrun1⟩ := calculate_cost_old_ok_shape hc
      subst hrun1
      obtain ⟨k, hk1, hk2, hk3, hk4, hk5⟩ :=
        ati_go_old_trace eval xo Co 98 1 p.1 _ r (by omega) h
      refine ⟨k + 1, by omega, by omega, ?_, ?_, ?_⟩
      · rw [hk3]; simp [RunState.fresh]; omega
      · rw [hk4]; simp [RunState.fresh]
      · intro hcf; have := hk5 hcf; omega

/-- C6: both ATI loops always terminate after at most the fixed
maximum number of iterations — 25 in the log variant of
`src/pyrite.py`, 100 in the standard variant of `src/old_code.py`
(one cost entry is recorded per executed iteration).  When the
tolerance is never met the loop still returns its last state estimate
with the run's `converged` flag false — a non-converged run is exactly
one that used all its iterations — and non-convergence raises no
exception. -/
theorem ati_max_iterations :
    (∀ {n m : ℕ}
      (eval : (Fin (n + 1) → ℝ) → (Fin m → ℝ) × Matrix (Fin m) (Fin (n + 1)) ℝ)
      (xo_log : Fin (n + 1) → ℝ) (Co_log : Matrix (Fin (n + 1)) (Fin (n + 1)) ℝ)
      (Cf : Matrix (Fin m) (Fin m) ℝ) (r : ATIResult n m),
      find_solution eval xo_log Co_log Cf RunState.fresh = Except.ok r →
        1 ≤ r.run.cost_evolution.length ∧ r.run.cost_evolution.length ≤ 25
        ∧ (r.run.converged = false → r.run.cost_evolution.length = 25))
    ∧ (∀ {n m : ℕ}
      (eval : (Fin (n + 1) → ℝ) → (Fin m → ℝ) × Matrix (Fin m) (Fin (n + 1)) ℝ)
      (xo : Fin (n + 1) → ℝ) (Co : Matrix (Fin (n + 1)) (Fin (n + 1)) ℝ)
      (r : ATIResult n m),
      find_solution_old eval xo Co RunState.fresh = Except.ok r →
        1 ≤ r.run.cost_evolution.length ∧ r.run.cost_evolution.length ≤ 100
        ∧ (r.run.converged = false → r.run.cost_evolution.length = 100)) := by
  constructor
  · intro n m eval xo_log Co_log Cf r h
    obtain ⟨k, hk1, hk2, hk3, hk4, hk5⟩ :=
      ati_go_trace eval xo_log Co_log Cf 24 xo_log RunState.fresh r h
    rw [hk3]
    refine ⟨by simp [RunState.fresh]; omega, by simp [RunState.fresh]; omega,
      fun hc => by simp [RunState.fresh]; have := hk5 hc; omega⟩
  · intro n m eval xo Co r h
    obtain ⟨k, hk1, hk2, hk3, hk4, hk5⟩ := find_solution_old_trace eval xo Co r h
    rw [hk3]
    exact ⟨by omega, by omega, fun hc => hk5 hc⟩

/-- Witness for `ati_max_iterations` on the demonstration model. -/
theorem ati_max_iterations_witness :
    (1 ≤ demoRes.run.cost_evolution.length ∧ demoRes.run.cost_evolution.length ≤ 25
      ∧ (demoRes.run.converged = false → demoRes.run.cost_evolution.length = 25))
    ∧ (1 ≤ demoResOld.run.cost_evolution.length
      ∧ demoResOld.run.cost_evolution.length ≤ 100
      ∧ (demoResOld.run.converged = false → demoResOld.run.cost_evolution.length = 100)) :=
  ⟨ati_max_iterations.1 demoEval 0 1 1 demoRes demo_find,
   ati_max_iterations.2 demoEval 0 1 demoResOld demo_find_old⟩

/-- C3 (amended): the convergence test of `src/old_code.py` runs only
after the first iteration (one convergence entry fewer than cost
entries), while the test of `src/pyrite.py` runs at *every* iteration,
the first included (equal trace lengths).  The test computes the
maximum over state elements of `|(x(k+1)_i − xk_i) / xk_i|` — on the
exponentiated (linear-domain) values in the log variant — appends it to
`run.convergence_evolution`, and declares convergence exactly when the
maximum is below the tolerance: `10⁻⁶` standard, `0.01` log. -/
theorem convergence_test_timing :
    (∀ {n m : ℕ}
      (eval : (Fin (n + 1) → ℝ) → (Fin m → ℝ) × Matrix (Fin m) (Fin (n + 1)) ℝ)
      (xo_log : Fin (n + 1) → ℝ) (Co_log : Matrix (Fin (n + 1)) (Fin (n + 1)) ℝ)
      (Cf : Matrix (Fin m) (Fin m) ℝ) (r : ATIResult n m),
      find_solution eval xo_log Co_log Cf RunState.fresh = Except.ok r →
        r.run.convergence_evolution.length = r.run.cost_evolution.length)
    ∧ (∀ {n m : ℕ}
      (eval : (Fin (n + 1) → ℝ) → (Fin m → ℝ) × Matrix (Fin m) (Fin (n + 1)) ℝ)
      (xo : Fin (n + 1) → ℝ) (Co : Matrix (Fin (n + 1)) (Fin (n + 1)) ℝ)
      (r : ATIResult n m),
      find_solution_old eval xo Co RunState.fresh = Except.ok r →
        r.run.convergence_evolution.length + 1 = r.run.cost_evolution.length)
    ∧ (∀ {k : ℕ} (run : RunState) (xk xkp1 : Fin (k + 1) → ℝ),
      ((check_convergence run xk xkp1).1 = true
        ↔ npMax (fun i => |(Real.exp (xkp1 i) - Real.exp (xk i)) / Real.exp (xk i)|) < 1 / 100)
      ∧ (check_convergence run xk xkp1).2.convergence_evolution
          = run.convergence_evolution
            ++ [npMax (fun i => |(Real.exp (xkp1 i) - Real.exp (xk i)) / Real.exp (xk i)|)])
    ∧ (∀ {k : ℕ} (run : RunState) (xk xkp1 : Fin (k + 1) → ℝ),
      ((check_convergence_old run xk xkp1).1 = true
        ↔ npMax (fun i => |(xkp1 i - xk i) / xk i|) < 1 / 1000000)
      ∧ (check_convergence_old run xk xkp1).2.convergence_evolution
          = run.convergence_evolution ++ [npMax (fun i => |(xkp1 i - xk i) / xk i|)]) := by
  refine ⟨?_, ?_, ?_, ?_⟩
  · intro n m eval xo_log Co_log Cf r h
    obtain ⟨k, hk1, hk2, hk3, hk4, hk5⟩ :=
      ati_go_trace eval xo_log Co_log Cf 24 xo_log RunState.fresh r h
    rw [hk3, hk4]
    rfl
  · intro n m eval xo Co r h
    obtain ⟨k, hk1, hk2, hk3, hk4, hk5⟩ := find_solution_old_trace eval xo Co r h
    rw [hk3, hk4]
  · intro k run xk xkp1
    have h100 : (0.01 : ℝ) = 1 / 100 := by norm_num
    constructor
    · unfold check_convergence
      dsimp only []
      rw [h100]
      split_ifs with hs
      · exact iff_of_true rfl hs
      · exact iff_of_false (by simp) hs
    · rfl
  · intro k run xk xkp1
    constructor
    · unfold check_convergence_old
      dsimp only []
      split_ifs with hs
      · exact iff_of_true rfl hs
      · exact iff_of_false (by simp) hs
    · rfl

/-- Witness for `convergence_test_timing` on the demonstration model. -/
theorem convergence_test_timing_witness :
    demoRes.run.convergence_evolution.length = demoRes.run.cost_evolution.length
    ∧ demoResOld.run.convergence_evolution.length + 1
        = demoResOld.run.cost_evolution.length :=
  ⟨convergence_test_timing.1 demoEval 0 1 1 demoRes demo_find,
   convergence_test_timing.2.1 demoEval 0 1 demoResOld demo_find_old⟩

/-! ## The posterior covariance (claim C2) -/

theorem calculate_xkp1E_ok_parts {n m : ℕ} {xo_log : Fin n → ℝ}
    {Co_log : Matrix (Fin n) (Fin n) ℝ} {Cf : Matrix (Fin m) (Fin m) ℝ}
    {xk : Fin n → ℝ} {f : Fin m → ℝ} {F : Matrix (Fin m) (Fin n) ℝ}
    {p : (Fin n → ℝ) × Matrix (Fin n) (Fin m) ℝ × Matrix (Fin m) (Fin m) ℝ}
    (h : calculate_xkp1E xo_log Co_log Cf xk f F = Except.ok p) :
    p.2.1 = Co_log * F.transpose
    ∧ p.2.2 = matInv (F * (Co_log * F.transpose) + Cf) := by
  unfold calculate_xkp1E npLinalgInv at h
  dsimp only [] at h
  split_ifs at h with hdet
  · simp [Bind.bind, Except.bind] at h
  · simp only [Bind.bind, Except.bind, pure, Except.pure, Except.ok.injEq] at h
    have hm : matInv (F * (Co_log * F.transpose) + Cf)
        = (F * (Co_log * F.transpose) + Cf).det⁻¹ • (F * (Co_log * F.transpose) + Cf).adjugate := by
      unfold matInv
      rw [if_neg hdet]
    rw [← h, hm]
    exact ⟨rfl, rfl⟩

theorem calculate_xkp1_oldE_ok_parts {n m : ℕ} {xo : Fin n → ℝ}
    {Co : Matrix (Fin n) (Fin n) ℝ} {xk : Fin n → ℝ} {f : Fin m → ℝ}
    {F : Matrix (Fin m) (Fin n) ℝ}
    {p : (Fin n → ℝ) × Matrix (Fin n) (Fin m) ℝ × Matrix (Fin m) (Fin m) ℝ}
    (h : calculate_xkp1_oldE xo Co xk f F = Except.ok p) :
    p.2.1 = Co * F.transpose ∧ p.2.2 = matInv (F * (Co * F.transpose)) := by
  unfold calculate_xkp1_oldE npLinalgInv at h
  dsimp only [] at h
  split_ifs at h with hdet
  · simp [Bind.bind, Except.bind] at h
  · simp only [Bind.bind, Except.bind, pure, Except.pure, Except.ok.injEq] at h
    have hm : matInv (F * (Co * F.transpose))
        = (F * (Co * F.transpose)).det⁻¹ • (F * (Co * F.transpose)).adjugate := by
      unfold matInv
      rw [if_neg hdet]
    rw [← h, hm]
    exact ⟨rfl, rfl⟩

/-- Loop invariant: the `CoFT` and `FCoFTpCfi` returned with the last
Jacobian `F` are `Co·Fᵗ` and `(F·Co·Fᵗ+Cf)⁻¹` for that same `F`. -/
theorem ati_go_inv {n m : ℕ}
    (eval : (Fin (n + 1) → ℝ) → (Fin m → ℝ) × Matrix (Fin m) (Fin (n + 1)) ℝ)
    (xo_log : Fin (n + 1) → ℝ) (Co_log : Matrix (Fin (n + 1)) (Fin (n + 1)) ℝ)
    (Cf : Matrix (Fin m) (Fin m) ℝ) :
    ∀ (fuel : ℕ) (xk : Fin (n + 1) → ℝ) (run : RunState) (r : ATIResult n m),
      ati_go eval xo_log Co_log Cf fuel xk run = Except.ok r →
      r.CoFT = Co_log * r.F.transpose
      ∧ r.FCoFTinv = matInv (r.F * (Co_log * r.F.transpose) + Cf) := by
  intro fuel
  induction fuel with
  | zero =>
    intro xk run r h
    rw [ati_go] at h
    simp only [Bind.bind, Except.bind] at h
    cases hx : calculate_xkp1E xo_log Co_log Cf xk (eval xk).1 (eval xk).2 with
    | error e =>
      rw [hx] at h
      simp at h
    | ok p =>
      rw [hx] at h
      dsimp only [] at h
      obtain ⟨hp1, hp2⟩ := calculate_xkp1E_ok_parts hx
      cases hc : calculate_cost xo_log Co_log Cf xk (eval xk).1 run with
      | error e =>
        rw [hc] at h
        simp at h
      | ok run1 =>
        rw [hc] at h
        dsimp only [] at h
        rcases Bool.eq_false_or_eq_true ((check_convergence run1 xk p.1).1) with hcv | hcv <;>
          rw [hcv] at h <;>
          simp only [Bool.false_eq_true, reduceIte, pure, Except.pure,
            Except.ok.injEq] at h <;>
          cases h.symm <;>
          exact ⟨hp1, hp2⟩
  | succ fuel ih =>
    intro xk run r h
    rw [ati_go] at h
    simp only [Bind.bind, Except.bind] at h
    cases hx : calculate_xkp1E xo_log Co_log Cf xk (eval xk).1 (eval xk).2 with
    | error e =>
      rw [hx] at h
      simp at h
    | ok p =>
      rw [hx] at h
      dsimp only [] at h
      obtain ⟨hp1, hp2⟩ := calculate_xkp1E_ok_parts hx
      cases hc : calculate_cost xo_log Co_log Cf xk (eval xk).1 run with
      | error e =>
        rw [hc] at h
        simp at h
      | ok run1 =>
        rw [hc] at h
        dsimp only [] at h
        rcases Bool.eq_false_or_eq_true ((check_convergence run1 xk p.1).1) with hcv | hcv <;>
          rw [hcv] at h
        · simp only [reduceIte, pure, Except.pure, Except.ok.injEq] at h
          cases h.symm
          exact ⟨hp1, hp2⟩
        · simp only [Bool.false_eq_true, reduceIte] at h
          exact ih p.1 _ r h

/-- Loop invariant for `src/old_code.py`. -/
theorem ati_go_old_inv {n m : ℕ}
    (eval : (Fin (n + 1) → ℝ) → (Fin m → ℝ) × Matrix (Fin m) (Fin (n + 1)) ℝ)
    (xo : Fin (n + 1) → ℝ) (Co : Matrix (Fin (n + 1)) (Fin (n + 1)) ℝ) :
    ∀ (fuel count : ℕ) (xk : Fin (n + 1) → ℝ) (run : RunState) (r : ATIResult n m),
      ati_go_old eval xo Co fuel count xk run = Except.ok r →
      r.CoFT = Co * r.F.transpose
      ∧ r.FCoFTinv = matInv (r.F * (Co * r.F.transpose)) := by
  intro fuel
  induction fuel with
  | zero =>
    intro count xk run r h
    rw [ati_go_old] at h
    simp only [Bind.bind, Except.bind] at h
    cases hx : calculate_xkp1_oldE xo Co xk (eval xk).1 (eval xk).2 with
    | error e =>
      rw [hx] at h
      simp at h
    | ok p =>
      rw [hx] at h
      dsimp only [] at h
      obtain ⟨hp1, hp2⟩ := calculate_xkp1_oldE_ok_parts hx
      cases hc : calculate_cost_old xo Co p.1 run with
      | error e =>
        rw [hc] at h
        simp at h
      | ok run1 =>
        rw [hc] at h
        dsimp only [] at h
        rcases Nat.eq_zero_or_pos count with hcount | hcount
        · subst hcount
          rw [if_neg (by omega : ¬ 0 < 0)] at h
          cases h.symm
          exact ⟨hp1, hp2⟩
        · rw [if_pos hcount] at h
          rcases Bool.eq_false_or_eq_true ((check_convergence_old run1 xk p.1).1)
            with hcv | hcv <;>
            rw [hcv] at h <;>
            simp only [Bool.false_eq_true, reduceIte, pure, Except.pure,
              Except.ok.injEq] at h <;>
            cases h.symm <;>
            exact ⟨hp1, hp2⟩
  | succ fuel ih =>
    intro count xk run r h
    rw [ati_go_old] at h
    simp only [Bind.bind, Except.bind] at h
    cases hx : calculate_xkp1_oldE xo Co xk (eval xk).1 (eval xk).2 with
    | error e =>
      rw [hx] at h
      simp at h
    | ok p =>
      rw [hx] at h
      dsimp only [] at h
      obtain ⟨hp1, hp2⟩ := calculate_xkp1_oldE_ok_parts hx
      cases hc : calculate_cost_old xo Co p.1 run with
      | error e =>
        rw [hc] at h
        simp at h
      | ok run1 =>
        rw [hc] at h
        dsimp only [] at h
        rcases Nat.eq_zero_or_pos count with hcount | hcount
        · subst hcount
          rw [if_neg (by omega : ¬ 0 < 0)] at h
          exact ih (0 + 1) p.1 _ r h
        · rw [if_pos hcount] at h
          rcases Bool.eq_false_or_eq_true ((check_convergence_old run1 xk p.1).1)
            with hcv | hcv <;>
            rw [hcv] at h
          · simp only [reduceIte, pure, Except.pure, Except.ok.injEq] at h
            cases h.symm
            exact ⟨hp1, hp2⟩
          · simp only [Bool.false_eq_true, reduceIte] at h
            exact ih (count + 1) p.1 _ r h

/-- With `Cf = 0` and an invertible `F·Co·Fᵗ`, the sandwich form of
`src/pyrite.py` collapses to the textbook posterior covariance. -/
theorem posterior_cov_log_cf_zero {n m : ℕ} (Co : Matrix (Fin n) (Fin n) ℝ)
    (F : Matrix (Fin m) (Fin n) ℝ) (h : IsUnit (F * Co * F.transpose).det) :
    posterior_cov_log Co F 0
      = Co - Co * F.transpose * matInv (F * Co * F.transpose) * F * Co := by
  unfold posterior_cov_log
  dsimp only []
  rw [add_zero]
  set A := matInv (F * (Co * F.transpose)) with hA
  have hassoc : F * (Co * F.transpose) = F * Co * F.transpose := by
    rw [Matrix.mul_assoc]
  have hMA : F * Co * F.transpose * A = 1 := by
    rw [hA, hassoc, matInv_eq_inv, Matrix.mul_nonsing_inv _ h]
  have hmatInv : matInv (F * Co * F.transpose) = A := by rw [hA, hassoc]
  rw [hmatInv]
  rw [Matrix.sub_mul, Matrix.one_mul, Matrix.mul_sub, Matrix.mul_one]
  have hz : (Co - Co * F.transpose * A * F * Co) * (F.transpose * A * F * Co) = 0 := by
    rw [Matrix.sub_mul]
    have e0 : Co * (F.transpose * A * F * Co) = Co * F.transpose * A * F * Co := by
      simp only [Matrix.mul_assoc]
    have e1 : Co * F.transpose * A * F * Co * (F.transpose * A * F * Co)
        = Co * F.transpose * A * (F * Co * F.transpose * A) * F * Co := by
      simp only [Matrix.mul_assoc]
    rw [e0, e1, hMA, Matrix.mul_one, sub_self]
  rw [hz, sub_zero]

/-- Counterexample for C2: at `Co = F = Cf = (1)` (one state element,
one equation), the posterior covariance computed by
`unlog_state_estimates` in `src/pyrite.py` is `1/4`, not the claimed
`Co − Co·Fᵗ·(F·Co·Fᵗ+Cf)⁻¹·F·Co = 1/2`. -/
theorem posterior_cov_log_ne_claimed :
    posterior_cov_log (n := 1) (m := 1) 1 1 1
      ≠ (1 : Matrix (Fin 1) (Fin 1) ℝ)
        - (1 : Matrix (Fin 1) (Fin 1) ℝ) * (1 : Matrix (Fin 1) (Fin 1) ℝ).transpose
          * matInv ((1 : Matrix (Fin 1) (Fin 1) ℝ) * (1 : Matrix (Fin 1) (Fin 1) ℝ)
              * (1 : Matrix (Fin 1) (Fin 1) ℝ).transpose + 1)
          * (1 : Matrix (Fin 1) (Fin 1) ℝ) * (1 : Matrix (Fin 1) (Fin 1) ℝ) := by
  have hdet : ((1 : Matrix (Fin 1) (Fin 1) ℝ) + 1).det = 2 := by
    rw [Matrix.det_fin_one]
    simp [Matrix.add_apply, Matrix.one_apply_eq]
    norm_num
  have hmi : matInv ((1 : Matrix (Fin 1) (Fin 1) ℝ) + 1) = (2 : ℝ)⁻¹ • 1 := by
    unfold matInv
    rw [hdet, if_neg (by norm_num), Matrix.adjugate_fin_one]
  have hL : posterior_cov_log (n := 1) (m := 1) 1 1 1 0 0 = 1 / 4 := by
    unfold posterior_cov_log
    simp only [Matrix.transpose_one, Matrix.mul_one, Matrix.one_mul]
    rw [hmi]
    simp [Matrix.mul_apply, Fin.sum_univ_one, Matrix.sub_apply, Matrix.smul_apply,
      Matrix.one_apply_eq]
    norm_num
  have hR : (((1 : Matrix (Fin 1) (Fin 1) ℝ)
      - (1 : Matrix (Fin 1) (Fin 1) ℝ) * (1 : Matrix (Fin 1) (Fin 1) ℝ).transpose
        * matInv ((1 : Matrix (Fin 1) (Fin 1) ℝ) * (1 : Matrix (Fin 1) (Fin 1) ℝ)
            * (1 : Matrix (Fin 1) (Fin 1) ℝ).transpose + 1)
        * (1 : Matrix (Fin 1) (Fin 1) ℝ) * (1 : Matrix (Fin 1) (Fin 1) ℝ)
      : Matrix (Fin 1) (Fin 1) ℝ)) 0 0 = 1 / 2 := by
    simp only [Matrix.transpose_one, Matrix.mul_one, Matrix.one_mul]
    rw [hmi]
    simp [Matrix.mul_apply, Fin.sum_univ_one, Matrix.sub_apply, Matrix.smul_apply,
      Matrix.one_apply_eq]
    norm_num
  intro h
  have h00 := Matrix.ext_iff.mpr h 0 0
  rw [hL, hR] at h00
  norm_num at h00

/-- C2 (amended): when the ATI loop ends, `src/old_code.py` returns the
posterior covariance `Co − Co·Fᵗ·(F·Co·Fᵗ)⁻¹·F·Co` computed with the
last Jacobian `F`, as claimed; `src/pyrite.py` instead returns the
sandwich form `(I − Co·Fᵗ·A·F)·Co·(I − Fᵗ·A·F·Co)` with
`A = (F·Co·Fᵗ+Cf)⁻¹`, which agrees with the claimed formula only when
`Cf = 0` (given an invertible `F·Co·Fᵗ`); the log-parameterized
back-transform uses the lognormal mean `exp(μ + σ²/2)` and the standard
lognormal variance formula, as claimed. -/
theorem posterior_cov_and_back_transform :
    (∀ {n m : ℕ}
      (eval : (Fin (n + 1) → ℝ) → (Fin m → ℝ) × Matrix (Fin m) (Fin (n + 1)) ℝ)
      (xo : Fin (n + 1) → ℝ) (Co : Matrix (Fin (n + 1)) (Fin (n + 1)) ℝ)
      (r : ATIResult n m),
      find_solution_old eval xo Co RunState.fresh = Except.ok r →
      unpack_state_estimates_old eval xo Co RunState.fresh
        = Except.ok (r.xkp1,
            fun i => Real.sqrt
              ((Co - Co * r.F.transpose * matInv (r.F * Co * r.F.transpose) * r.F * Co) i i),
            Co - Co * r.F.transpose * matInv (r.F * Co * r.F.transpose) * r.F * Co,
            r.run))
    ∧ (∀ {n m : ℕ}
      (eval : (Fin (n + 1) → ℝ) → (Fin m → ℝ) × Matrix (Fin m) (Fin (n + 1)) ℝ)
      (xo_log : Fin (n + 1) → ℝ) (Co_log : Matrix (Fin (n + 1)) (Fin (n + 1)) ℝ)
      (Cf : Matrix (Fin m) (Fin m) ℝ) (r : ATIResult n m),
      find_solution eval xo_log Co_log Cf RunState.fresh = Except.ok r →
      unlog_state_estimates eval xo_log Co_log Cf RunState.fresh
        = Except.ok (
            fun i => Real.exp (r.xkp1 i + posterior_cov_log Co_log r.F Cf i i / 2),
            fun i => Real.sqrt ((Real.exp (posterior_cov_log Co_log r.F Cf i i) - 1)
              * Real.exp (2 * r.xkp1 i + posterior_cov_log Co_log r.F Cf i i)),
            posterior_cov_log Co_log r.F Cf,
            Matrix.of (fun i j => Real.exp (r.xkp1 i + r.xkp1 j)
              * Real.exp ((posterior_cov_log Co_log r.F Cf i i
                  + posterior_cov_log Co_log r.F Cf j j) / 2)
              * (Real.exp (posterior_cov_log Co_log r.F Cf i j) - 1)),
            r.run))
    ∧ (∀ {n m : ℕ} (Co : Matrix (Fin n) (Fin n) ℝ) (F : Matrix (Fin m) (Fin n) ℝ),
      IsUnit (F * Co * F.transpose).det →
      posterior_cov_log Co F 0
        = Co - Co * F.transpose * matInv (F * Co * F.transpose) * F * Co) := by
  refine ⟨?_, ?_, ?_⟩
  · intro n m eval xo Co r h
    have h' : ati_go_old eval xo Co 99 0 xo RunState.fresh = Except.ok r := h
    obtain ⟨hinv1, hinv2⟩ := ati_go_old_inv eval xo Co 99 0 xo RunState.fresh r h'
    unfold unpack_state_estimates_old
    rw [h]
    simp only [Except.map]
    rw [hinv1, hinv2, ← Matrix.mul_assoc r.F Co r.F.transpose]
  · intro n m eval xo_log Co_log Cf r h
    have h' : ati_go eval xo_log Co_log Cf 24 xo_log RunState.fresh = Except.ok r := h
    obtain ⟨hinv1, hinv2⟩ := ati_go_inv eval xo_log Co_log Cf 24 xo_log RunState.fresh r h'
    unfold unlog_state_estimates
    rw [h]
    simp only [Except.map]
    have hC : (1 - r.CoFT * r.FCoFTinv * r.F) * Co_log
        * (1 - r.F.transpose * r.FCoFTinv * r.F * Co_log)
        = posterior_cov_log Co_log r.F Cf := by
      unfold posterior_cov_log
      rw [hinv1, hinv2]
    rw [hC]
    congr 1
    refine congrArg₂ _ rfl (congrArg₂ _ ?_ rfl)
    funext i
    rw [mul_comm]
  · intro n m Co F h
    exact posterior_cov_log_cf_zero Co F h

/-- Witness for `posterior_cov_and_back_transform` at the
demonstration model. -/
theorem posterior_cov_and_back_transform_witness :
    unpack_state_estimates_old demoEval 0 1 RunState.fresh
      = Except.ok (demoResOld.xkp1,
          fun i => Real.sqrt
            ((((1 : Matrix (Fin 1) (Fin 1) ℝ) - 1 * demoResOld.F.transpose
                * matInv (demoResOld.F * 1 * demoResOld.F.transpose)
                * demoResOld.F * 1 : Matrix (Fin 1) (Fin 1) ℝ)) i i),
          (1 : Matrix (Fin 1) (Fin 1) ℝ) - 1 * demoResOld.F.transpose
            * matInv (demoResOld.F * 1 * demoResOld.F.transpose) * demoResOld.F * 1,
          demoResOld.run)
    ∧ unlog_state_estimates demoEval 0 1 1 RunState.fresh
        = Except.ok (
            fun i => Real.exp (demoRes.xkp1 i + posterior_cov_log 1 demoRes.F 1 i i / 2),
            fun i => Real.sqrt ((Real.exp (posterior_cov_log 1 demoRes.F 1 i i) - 1)
              * Real.exp (2 * demoRes.xkp1 i + posterior_cov_log 1 demoRes.F 1 i i)),
            posterior_cov_log 1 demoRes.F 1,
            Matrix.of (fun i j => Real.exp (demoRes.xkp1 i + demoRes.xkp1 j)
              * Real.exp ((posterior_cov_log 1 demoRes.F 1 i i
                  + posterior_cov_log 1 demoRes.F 1 j j) / 2)
              * (Real.exp (posterior_cov_log 1 demoRes.F 1 i j) - 1)),
            demoRes.run)
    ∧ posterior_cov_log (n := 1) (m := 1) 1 1 0
        = (1 : Matrix (Fin 1) (Fin 1) ℝ)
          - (1 : Matrix (Fin 1) (Fin 1) ℝ) * (1 : Matrix (Fin 1) (Fin 1) ℝ).transpose
            * matInv ((1 : Matrix (Fin 1) (Fin 1) ℝ) * (1 : Matrix (Fin 1) (Fin 1) ℝ)
                * (1 : Matrix (Fin 1) (Fin 1) ℝ).transpose)
            * (1 : Matrix (Fin 1) (Fin 1) ℝ) * (1 : Matrix (Fin 1) (Fin 1) ℝ) :=
  ⟨posterior_cov_and_back_transform.1 demoEval 0 1 demoResOld demo_find_old,
   posterior_cov_and_back_transform.2.1 demoEval 0 1 1 demoRes demo_find,
   posterior_cov_and_back_transform.2.2 1 1 (by simp)⟩

/-- A deliberately singular system: two duplicate equations over a
single state element. -/
noncomputable def dupF : Matrix (Fin 2) (Fin 1) ℝ := !![1; 1]

/-- Evaluator with duplicate equations (zero residual, Jacobian `dupF`). -/
noncomputable def demoEvalSing : (Fin 1 → ℝ) → (Fin 2 → ℝ) × Matrix (Fin 2) (Fin 1) ℝ :=
  fun _ => (0, dupF)

theorem demo_det_sing :
    (dupF * ((1 : Matrix (Fin 1) (Fin 1) ℝ) * dupF.transpose)
      + (0 : Matrix (Fin 2) (Fin 2) ℝ)).det = 0 := by
  have hFF : dupF * ((1 : Matrix (Fin 1) (Fin 1) ℝ) * dupF.transpose)
      + (0 : Matrix (Fin 2) (Fin 2) ℝ) = !![1, 1; 1, 1] := by
    rw [Matrix.one_mul, add_zero]
    ext i j
    fin_cases i <;> fin_cases j <;>
      simp [dupF, Matrix.mul_apply, Fin.sum_univ_one, Matrix.transpose_apply,
        Matrix.vecHead, Matrix.cons_val_zero, Matrix.cons_val_one, Matrix.head_cons]
  rw [hFF, Matrix.det_fin_two_of]
  norm_num

/-- Witness for `singular_matrix_error_propagates`: duplicate equations
raise `Singular matrix`, the ensemble driver skips that configuration,
and the well-posed demonstration model continues. -/
theorem singular_matrix_error_propagates_witness :
    find_solution demoEvalSing 0 1 0 RunState.fresh = Except.error "Singular matrix"
    ∧ invert_station demoEvalSing 0 1 0 = Except.ok none
    ∧ invert_station demoEval 0 1 1 = Except.ok (some demoRes) := by
  have h := singular_matrix_error_propagates demoEvalSing 0 1 0 0 dupF rfl demo_det_sing
  exact ⟨h.1, h.2.1, h.2.2 demoEval 0 1 1 demoRes demo_find⟩

/-! ## Symbolic expressions

The model equations of `src/pyrite.py` are sympy expressions; we embed
the fragment of sympy that the code uses.  A sympy symbol name either
contains an underscore (`POCS_-2`: a tracer at a relative depth) or not
(`Bm2`: a parameter); `extract_equation_variables` branches on exactly
that split, so symbols are embedded as the corresponding tagged
union. -/

/-- A free symbol of a model equation: tracer name + relative depth
(sympy name `POCS_-2`), or a bare parameter name (`Bm2`). -/
inductive Sym where
  | tracer : String → Int → Sym
  | param : String → Sym
deriving DecidableEq

/-- A key of `self.state_elements` (`POCS_17`, `ws_LEZ`, `P30`). -/
inductive ElementKey where
  | tracerAt : String → Int → ElementKey
  | paramZ : String → String → ElementKey
  | paramG : String → ElementKey
deriving DecidableEq

/-- The fragment of sympy expressions used by the model, over a symbol
type `σ`. -/
inductive Expr (σ : Type) where
  | const : ℝ → Expr σ
  | sym : σ → Expr σ
  | add : Expr σ → Expr σ → Expr σ
  | sub : Expr σ → Expr σ → Expr σ
  | mul : Expr σ → Expr σ → Expr σ
  | div : Expr σ → Expr σ → Expr σ
  | neg : Expr σ → Expr σ
  | pow : Expr σ → ℕ → Expr σ
  | eexp : Expr σ → Expr σ

instance {σ : Type} : Add (Expr σ) := ⟨Expr.add⟩

instance {σ : Type} : Sub (Expr σ) := ⟨Expr.sub⟩

instance {σ : Type} : Mul (Expr σ) := ⟨Expr.mul⟩

instance {σ : Type} : Div (Expr σ) := ⟨Expr.div⟩

instance {σ : Type} : Neg (Expr σ) := ⟨Expr.neg⟩

noncomputable instance {σ : Type} (k : ℕ) : OfNat (Expr σ) k := ⟨Expr.const k⟩

/-- `y.free_symbols` of sympy. -/
def freeSymbols {σ : Type} [DecidableEq σ] : Expr σ → Finset σ
  | .const _ => ∅
  | .sym s => {s}
  | .add a b => freeSymbols a ∪ freeSymbols b
  | .sub a b => freeSymbols a ∪ freeSymbols b
  | .mul a b => freeSymbols a ∪ freeSymbols b
  | .div a b => freeSymbols a ∪ freeSymbols b
  | .neg a => freeSymbols a
  | .pow a _ => freeSymbols a
  | .eexp a => freeSymbols a

@[simp] theorem freeSymbols_const {σ : Type} [DecidableEq σ] (c : ℝ) :
    freeSymbols (Expr.const (σ := σ) c) = ∅ := rfl

@[simp] theorem freeSymbols_sym {σ : Type} [DecidableEq σ] (s : σ) :
    freeSymbols (Expr.sym s) = {s} := rfl

@[simp] theorem freeSymbols_add {σ : Type} [DecidableEq σ] (a b : Expr σ) :
    freeSymbols (a + b) = freeSymbols a ∪ freeSymbols b := rfl

@[simp] theorem freeSymbols_sub {σ : Type} [DecidableEq σ] (a b : Expr σ) :
    freeSymbols (a - b) = freeSymbols a ∪ freeSymbols b := rfl

@[simp] theorem freeSymbols_mul {σ : Type} [DecidableEq σ] (a b : Expr σ) :
    freeSymbols (a * b) = freeSymbols a ∪ freeSymbols b := rfl

@[simp] theorem freeSymbols_div {σ : Type} [DecidableEq σ] (a b : Expr σ) :
    freeSymbols (a / b) = freeSymbols a ∪ freeSymbols b := rfl

@[simp] theorem freeSymbols_neg {σ : Type} [DecidableEq σ] (a : Expr σ) :
    freeSymbols (-a) = freeSymbols a := rfl

@[simp] theorem freeSymbols_pow {σ : Type} [DecidableEq σ] (a : Expr σ) (k : ℕ) :
    freeSymbols (Expr.pow a k) = freeSymbols a := rfl

@[simp] theorem freeSymbols_eexp {σ : Type} [DecidableEq σ] (a : Expr σ) :
    freeSymbols (Expr.eexp a) = freeSymbols a := rfl

/-- Numeric evaluation of an expression under an assignment of its
symbols (what `sym.lambdify(x_sym, y)(*x_num)` computes). -/
noncomputable def evalE {σ : Type} (env : σ → ℝ) : Expr σ → ℝ
  | .const c => c
  | .sym s => env s
  | .add a b => evalE env a + evalE env b
  | .sub a b => evalE env a - evalE env b
  | .mul a b => evalE env a * evalE env b
  | .div a b => evalE env a / evalE env b
  | .neg a => -evalE env a
  | .pow a k => evalE env a ^ k
  | .eexp a => Real.exp (evalE env a)

@[simp] theorem evalE_const {σ : Type} (env : σ → ℝ) (c : ℝ) :
    evalE env (Expr.const c) = c := rfl

@[simp] theorem evalE_sym {σ : Type} (env : σ → ℝ) (s : σ) :
    evalE env (Expr.sym s) = env s := rfl

@[simp] theorem evalE_add {σ : Type} (env : σ → ℝ) (a b : Expr σ) :
    evalE env (a + b) = evalE env a + evalE env b := rfl

@[simp] theorem evalE_sub {σ : Type} (env : σ → ℝ) (a b : Expr σ) :
    evalE env (a - b) = evalE env a - evalE env b := rfl

@[simp] theorem evalE_mul {σ : Type} (env : σ → ℝ) (a b : Expr σ) :
    evalE env (a * b) = evalE env a * evalE env b := rfl

@[simp] theorem evalE_div {σ : Type} (env : σ → ℝ) (a b : Expr σ) :
    evalE env (a / b) = evalE env a / evalE env b := rfl

@[simp] theorem evalE_neg {σ : Type} (env : σ → ℝ) (a : Expr σ) :
    evalE env (-a) = -evalE env a := rfl

@[simp] theorem evalE_pow {σ : Type} (env : σ → ℝ) (a : Expr σ) (k : ℕ) :
    evalE env (Expr.pow a k) = evalE env a ^ k := rfl

@[simp] theorem evalE_eexp {σ : Type} (env : σ → ℝ) (a : Expr σ) :
    evalE env (Expr.eexp a) = Real.exp (evalE env a) := rfl

/-- Symbolic differentiation, `y.diff(x)` of sympy. -/
noncomputable def deriv {σ : Type} [DecidableEq σ] : Expr σ → σ → Expr σ
  | .const _, _ => .const 0
  | .sym s, x => if s = x then .const 1 else .const 0
  | .add a b, x => .add (deriv a x) (deriv b x)
  | .sub a b, x => .sub (deriv a x) (deriv b x)
  | .mul a b, x => .add (.mul (deriv a x) b) (.mul a (deriv b x))
  | .div a b, x => .div (.sub (.mul (deriv a x) b) (.mul a (deriv b x))) (.pow b 2)
  | .neg a, x => .neg (deriv a x)
  | .pow a k, x => .mul (.mul (.const k) (.pow a (k - 1))) (deriv a x)
  | .eexp a, x => .mul (.eexp a) (deriv a x)

/-- Evaluation environment built from a zipped `x_sym, x_num` pair list,
as `sym.lambdify` pairs positional symbols and values. -/
def envOfPairs {σ : Type} [DecidableEq σ] (ps : List (σ × ℝ)) : σ → ℝ :=
  fun s => (((ps.find? fun q => q.1 = s).map Prod.snd).getD 0)

theorem envOfPairs_zip_map {σ : Type} [DecidableEq σ] (xs : List σ) (g : σ → ℝ) (s : σ) :
    envOfPairs (xs.zip (xs.map g)) s = if s ∈ xs then g s else 0 := by
  induction xs with
  | nil => rfl
  | cons x xs ih =>
    by_cases hx : x = s
    · subst hx
      simp [envOfPairs, List.find?]
    · simp only [List.map_cons, List.zip_cons_cons]
      rw [show envOfPairs ((x, g x) :: xs.zip (xs.map g)) s = envOfPairs (xs.zip (xs.map g)) s
        from by simp [envOfPairs, List.find?, hx]]
      rw [ih]
      have hsx : ¬ s = x := fun h => hx h.symm
      simp [List.mem_cons, hsx]

/-- Evaluation only depends on the environment's values at the free
symbols. -/
theorem evalE_congr {σ : Type} [DecidableEq σ] {env₁ env₂ : σ → ℝ} :
    ∀ (e : Expr σ), (∀ s ∈ freeSymbols e, env₁ s = env₂ s) →
      evalE env₁ e = evalE env₂ e := by
  intro e
  induction e with
  | const c => intro _; rfl
  | sym s => intro h; exact h s (by simp)
  | add a b iha ihb =>
    intro h
    show evalE env₁ a + evalE env₁ b = evalE env₂ a + evalE env₂ b
    rw [iha (fun s hs => h s (by simp [freeSymbols, hs])),
      ihb (fun s hs => h s (by simp [freeSymbols, hs]))]
  | sub a b iha ihb =>
    intro h
    show evalE env₁ a - evalE env₁ b = evalE env₂ a - evalE env₂ b
    rw [iha (fun s hs => h s (by simp [freeSymbols, hs])),
      ihb (fun s hs => h s (by simp [freeSymbols, hs]))]
  | mul a b iha ihb =>
    intro h
    show evalE env₁ a * evalE env₁ b = evalE env₂ a * evalE env₂ b
    rw [iha (fun s hs => h s (by simp [freeSymbols, hs])),
      ihb (fun s hs => h s (by simp [freeSymbols, hs]))]
  | div a b iha ihb =>
    intro h
    show evalE env₁ a / evalE env₁ b = evalE env₂ a / evalE env₂ b
    rw [iha (fun s hs => h s (by simp [freeSymbols, hs])),
      ihb (fun s hs => h s (by simp [freeSymbols, hs]))]
  | neg a iha =>
    intro h
    show -evalE env₁ a = -evalE env₂ a
    rw [iha (fun s hs => h s (by simp [freeSymbols, hs]))]
  | pow a k iha =>
    intro h
    show evalE env₁ a ^ k = evalE env₂ a ^ k
    rw [iha (fun s hs => h s (by simp [freeSymbols, hs]))]
  | eexp a iha =>
    intro h
    show Real.exp (evalE env₁ a) = Real.exp (evalE env₂ a)
    rw [iha (fun s hs => h s (by simp [freeSymbols, hs]))]

/-! ## The model configuration of `src/pyrite.py`

`GRID = np.arange(30, 505, 5)` (95 grid points), `MIXED_LAYER_DEPTH =
30`, `GRID_STEP = 5`, `BOUNDARY = 112.5`; tracers `POCS, POCL`
(`define_tracers`); params `ws, wl, B2p, Bm2, Bm1s, Bm1l` depth-varying
and `P30, Lp` depth-invariant (`define_params`); zones `LEZ, UMZ`
(`define_zones`). -/

def N_GRID_POINTS : ℕ := 95

noncomputable def MIXED_LAYER_DEPTH : ℝ := 30

noncomputable def GRID_STEP : ℝ := 5

noncomputable def GRID (d : ℕ) : ℝ := 30 + 5 * d

/-- `which_zone` of `src/pyrite.py`: a grid index is in the lower
euphotic zone iff its grid depth is above `BOUNDARY = 112.5`
(`LEZ.indices = np.where(GRID < BOUNDARY)[0]`); `GRID[depth] < 112.5`
is expressed in exact integer arithmetic as `2·(30 + 5·depth) < 225`. -/
def which_zone (depth : ℕ) : String :=
  if (30 + 5 * depth) * 2 < 225 then "LEZ" else "UMZ"

/-- Parameter names in `define_params` order, with their `dv`
(depth-varying) flags. -/
def params_dv : List (String × Bool) :=
  [("ws", true), ("wl", true), ("B2p", true), ("Bm2", true),
   ("Bm1s", true), ("Bm1l", true), ("P30", false), ("Lp", false)]

/-- The `dv` flag of a parameter (`define_params`). -/
def param_dv (p : String) : Bool :=
  if p = "P30" ∨ p = "Lp" then false else true

/-- `self.state_elements` as built by
`define_prior_vector_and_cov_matrix`: per tracer one element per grid
point, then per parameter one element per zone (if depth-varying) or a
single element. -/
def state_elements : List ElementKey :=
  ((List.range N_GRID_POINTS).map fun i => ElementKey.tracerAt "POCS" i)
    ++ ((List.range N_GRID_POINTS).map fun i => ElementKey.tracerAt "POCL" i)
    ++ (params_dv.flatMap fun pd =>
        if pd.2 then [ElementKey.paramZ pd.1 "LEZ", ElementKey.paramZ pd.1 "UMZ"]
        else [ElementKey.paramG pd.1])

/-- `self.equation_elements` (`define_equation_elements`): the tracer
elements followed by one total-POC (`POCT`) element per grid point. -/
def equation_elements : List (String × ℕ) :=
  ((List.range N_GRID_POINTS).map fun i => ("POCS", i))
    ++ ((List.range N_GRID_POINTS).map fun i => ("POCL", i))
    ++ ((List.range N_GRID_POINTS).map fun i => ("POCT", i))

/-- `equation_builder` of `src/pyrite.py` (lines 350–401), in the
`params_known=None` mode used by the ATI.  `Pt_constraint` is the
measured total-POC profile (external data). -/
noncomputable def equation_builder (species : String) (depth : ℕ)
    (Pt_constraint : ℕ → ℝ) : Expr Sym :=
  let Psi : Expr Sym := Expr.sym (Sym.tracer "POCS" 0)
  let Psip1 : Expr Sym := Expr.sym (Sym.tracer "POCS" 1)
  let Psim1 : Expr Sym := Expr.sym (Sym.tracer "POCS" (-1))
  let Psim2 : Expr Sym := Expr.sym (Sym.tracer "POCS" (-2))
  let Pli : Expr Sym := Expr.sym (Sym.tracer "POCL" 0)
  let Plip1 : Expr Sym := Expr.sym (Sym.tracer "POCL" 1)
  let Plim1 : Expr Sym := Expr.sym (Sym.tracer "POCL" (-1))
  let Plim2 : Expr Sym := Expr.sym (Sym.tracer "POCL" (-2))
  let Bm2 : Expr Sym := Expr.sym (Sym.param "Bm2")
  let B2p : Expr Sym := Expr.sym (Sym.param "B2p")
  let Bm1s : Expr Sym := Expr.sym (Sym.param "Bm1s")
  let Bm1l : Expr Sym := Expr.sym (Sym.param "Bm1l")
  let P30 : Expr Sym := Expr.sym (Sym.param "P30")
  let Lp : Expr Sym := Expr.sym (Sym.param "Lp")
  let ws : Expr Sym := Expr.sym (Sym.param "ws")
  let wl : Expr Sym := Expr.sym (Sym.param "wl")
  let h := MIXED_LAYER_DEPTH
  if species = "POCS" then
    (if depth = 0 then
      Bm2 * Pli - (ws / Expr.const h + Bm1s + B2p * Psi) * Psi
    else
      let multiply_by := if depth = 1 ∨ depth = 2 then Psip1 - Psim1
        else Expr.const 3 * Psi - Expr.const 4 * Psim1 + Psim2
      Bm2 * Pli - (Bm1s + B2p * Psi) * Psi
        - ws / Expr.const (2 * GRID_STEP) * multiply_by)
    + P30 * Expr.eexp (-Expr.const (GRID depth - h) / Lp)
  else if species = "POCL" then
    if depth = 0 then
      B2p * Expr.pow Psi 2 - (wl / Expr.const h + Bm2 + Bm1l) * Pli
    else
      let multiply_by := if depth = 1 ∨ depth = 2 then Plip1 - Plim1
        else Expr.const 3 * Pli - Expr.const 4 * Plim1 + Plim2
      B2p * Expr.pow Psi 2 - (Bm2 + Bm1l) * Pli
        - wl / Expr.const (2 * GRID_STEP) * multiply_by
  else
    Expr.const (Pt_constraint depth) - (Psi + Pli)

/-- The state-element index that `extract_equation_variables` computes
for a free symbol of the equation at `depth`: relative tracer depths
are made absolute, depth-varying parameters resolve via the depth's
zone, depth-invariant ones globally; the index is the position in
`state_elements`. -/
def resolveSym (depth : ℕ) (s : Sym) : ℕ :=
  match s with
  | Sym.tracer t rel => state_elements.indexOf (ElementKey.tracerAt t ((depth : Int) + rel))
  | Sym.param p =>
      if param_dv p then state_elements.indexOf (ElementKey.paramZ p (which_zone depth))
      else state_elements.indexOf (ElementKey.paramG p)

/-- `extract_equation_variables` of `src/pyrite.py` (lines 404–429),
parameterized by the enumeration order `enum` of the free-symbol set
(Python iterates over the set `y.free_symbols`).  Returns
`(x_symbolic, x_numerical, x_indices)`; with `lognormal=True` the
numeric value of a symbol is `exp(v[idx])`. -/
noncomputable def extract_equation_variables (enum : Expr Sym → List Sym) (y : Expr Sym)
    (depth : ℕ) (v : ℕ → ℝ) (lognormal : Bool) : List Sym × List ℝ × List ℕ :=
  let xs := enum y
  (xs,
   xs.map fun s =>
     if lognormal then Real.exp (v (resolveSym depth s)) else v (resolveSym depth s),
   xs.map fun s => resolveSym depth s)

/-- `sym.lambdify(x_sym, y)(*x_num)`: evaluate `y` with the symbols of
`x_sym` bound positionally to `x_num`. -/
noncomputable def lambdify_eval (xs : List Sym) (nums : List ℝ) (y : Expr Sym) : ℝ :=
  evalE (envOfPairs (xs.zip nums)) y

/-- One entry `f[i]` of the residual vector in
`evaluate_model_equations`. -/
noncomputable def model_residual (enum : Expr Sym → List Sym) (Pt : ℕ → ℝ) (v : ℕ → ℝ)
    (lognormal : Bool) (species : String) (depth : ℕ) : ℝ :=
  let y := equation_builder species depth Pt
  let e := extract_equation_variables enum y depth v lognormal
  lambdify_eval e.1 e.2.1 y

/-- One row `F[i, :]` of the Jacobian in `evaluate_model_equations`:
starting from a zero row, write `lambdify(dy)(…)` into column
`x_ind[j]` for each free symbol (with the log chain rule
`dy = y.diff(x) * x` when `lognormal`). -/
noncomputable def jacobian_row (enum : Expr Sym → List Sym) (Pt : ℕ → ℝ) (v : ℕ → ℝ)
    (lognormal : Bool) (species : String) (depth : ℕ) : ℕ → ℝ :=
  let y := equation_builder species depth Pt
  let e := extract_equation_variables enum y depth v lognormal
  e.1.foldl (fun row x =>
    let dy := if lognormal then Expr.mul (deriv y x) (Expr.sym x) else deriv y x
    let de := extract_equation_variables enum dy depth v lognormal
    Function.update row (resolveSym depth x) (lambdify_eval de.1 de.2.1 dy))
    (fun _ => 0)

/-- `evaluate_model_equations` of `src/pyrite.py` (lines 431–462),
`params_known=None` mode: the residual vector and the Jacobian matrix,
one row per equation element. -/
noncomputable def evaluate_model_equations (enum : Expr Sym → List Sym) (Pt : ℕ → ℝ)
    (v : ℕ → ℝ) (lognormal : Bool) : (ℕ → ℝ) × (ℕ → ℕ → ℝ) :=
  (fun i => match equation_elements.get? i with
    | some sd => model_residual enum Pt v lognormal sd.1 sd.2
    | none => 0,
   fun i => match equation_elements.get? i with
    | some sd => jacobian_row enum Pt v lognormal sd.1 sd.2
    | none => fun _ => 0)

/-! ## Jacobian sparsity (claim C5) -/

theorem foldl_update_ne_zero {β : Type} (t : β → ℕ) (w : β → ℝ) :
    ∀ (xs : List β) (row : ℕ → ℝ) (k : ℕ),
      (xs.foldl (fun r x => Function.update r (t x) (w x)) row) k ≠ 0 →
      (∃ s ∈ xs, t s = k) ∨ row k ≠ 0 := by
  intro xs
  induction xs with
  | nil => intro row k h; exact Or.inr h
  | cons x xs ih =>
    intro row k h
    rcases ih _ k h with h' | h'
    · obtain ⟨s, hs, ht⟩ := h'
      exact Or.inl ⟨s, List.mem_cons_of_mem _ hs, ht⟩
    · by_cases hk : t x = k
      · exact Or.inl ⟨x, List.mem_cons_self _ _, hk⟩
      · right
        have hb : (fun r y => Function.update r (t y) (w y)) row x k = row k :=
          Function.update_noteq (fun hh => hk hh.symm) _ _
        rw [hb] at h'
        exact h'

/-- C5 (amended): a Jacobian cell `F[i,k]` is nonzero only if `k` is
the resolved index of a free symbol of equation `i` (untouched cells
stay zero), and every free *tracer* symbol of an equation refers to a
layer between two above and one below the equation's own layer (the
second-order stencil `3·P_i − 4·P_{i−1} + P_{i−2}` reaches two layers
up, so the footprint is not limited to adjacent layers; parameter
symbols refer to zone-level or global unknowns, not layers). -/
theorem jacobian_sparsity :
    (∀ (enum : Expr Sym → List Sym) (Pt : ℕ → ℝ) (v : ℕ → ℝ) (lognormal : Bool)
      (species : String) (depth k : ℕ),
      jacobian_row enum Pt v lognormal species depth k ≠ 0 →
      ∃ s ∈ enum (equation_builder species depth Pt), resolveSym depth s = k)
    ∧ (∀ (species : String) (depth : ℕ) (Pt : ℕ → ℝ) (s : Sym),
      s ∈ freeSymbols (equation_builder species depth Pt) →
      ∀ t rel, s = Sym.tracer t rel → (-2 : ℤ) ≤ rel ∧ rel ≤ 1) := by
  constructor
  · intro enum Pt v lognormal species depth k h
    unfold jacobian_row at h
    have h' := foldl_update_ne_zero (fun x => resolveSym depth x)
      (fun x =>
        let dy := if lognormal
          then Expr.mul (deriv (equation_builder species depth Pt) x) (Expr.sym x)
          else deriv (equation_builder species depth Pt) x
        let de := extract_equation_variables enum dy depth v lognormal
        lambdify_eval de.1 de.2.1 dy)
      (extract_equation_variables enum (equation_builder species depth Pt) depth v
        lognormal).1 (fun _ => 0) k h
    rcases h' with h' | h'
    · obtain ⟨s, hs, ht⟩ := h'
      exact ⟨s, hs, ht⟩
    · exact absurd rfl h'
  · intro species depth Pt s hs t rel hrel
    subst hrel
    unfold equation_builder at hs
    by_cases hsp1 : species = "POCS" <;> by_cases hsp2 : species = "POCL" <;>
      by_cases hd0 : depth = 0 <;> by_cases hd12 : depth = 1 ∨ depth = 2 <;>
      simp only [hsp1, hsp2, hd0, hd12, reduceIte, String.reduceEq,
        if_true, if_false, ite_true, ite_false,
        freeSymbols_add, freeSymbols_sub, freeSymbols_mul, freeSymbols_div,
        freeSymbols_neg, freeSymbols_pow, freeSymbols_eexp, freeSymbols_sym,
        freeSymbols_const, Finset.mem_union, Finset.mem_singleton,
        Finset.union_empty, Finset.empty_union,
        Sym.tracer.injEq, Sym.param.injEq, reduceCtorEq, or_false, false_or] at hs <;>
      (repeat' rcases hs with hs | hs) <;>
      omega

set_option maxRecDepth 10000 in
/-- Counterexample for C5: the `POCS` equation at layer 3 has the free
symbol `POCS_-2`, which resolves to state element `POCS_1` (index 1,
layer 1) — neither layer 3 itself nor a layer adjacent to it. -/
theorem pocs_stencil_reaches_two_layers_up :
    Sym.tracer "POCS" (-2) ∈ freeSymbols (equation_builder "POCS" 3 (fun _ => 0))
    ∧ resolveSym 3 (Sym.tracer "POCS" (-2)) = 1
    ∧ state_elements.indexOf (ElementKey.tracerAt "POCS" 1) = 1
    ∧ ¬ ((1 : ℕ) = 3 ∨ (1 : ℕ) + 1 = 3 ∨ (1 : ℕ) = 3 + 1) :=
  ⟨by decide, by decide, by decide, by decide⟩

/-- Witness for `jacobian_sparsity`, instantiated at the `POCS`
equation of layer 3. -/
theorem jacobian_sparsity_witness :
    (jacobian_row (fun e => (freeSymbols e).toList) (fun _ => 0) (fun _ => 0)
        true "POCS" 3 77 ≠ 0 →
      ∃ s ∈ (freeSymbols (equation_builder "POCS" 3 (fun _ => 0))).toList,
        resolveSym 3 s = 77)
    ∧ (Sym.tracer "POCS" (-1) ∈ freeSymbols (equation_builder "POCS" 3 (fun _ => 0)) →
      ∀ t rel, Sym.tracer "POCS" (-1) = Sym.tracer t rel →
        (-2 : ℤ) ≤ rel ∧ rel ≤ 1) :=
  ⟨jacobian_sparsity.1 (fun e => (freeSymbols e).toList) (fun _ => 0) (fun _ => 0)
      true "POCS" 3 77,
   jacobian_sparsity.2 "POCS" 3 (fun _ => 0) (Sym.tracer "POCS" (-1))⟩

/-! ## Determinism of the evaluator (claim C9) -/

/-- The numeric value the evaluator binds to a free symbol of the
equation at `depth` (the `x_numerical` entries of
`extract_equation_variables`): the state value at the symbol's resolved
index, exponentiated when `lognormal`. -/
noncomputable def symValue (depth : ℕ) (v : ℕ → ℝ) (lognormal : Bool) (s : Sym) : ℝ :=
  if lognormal then Real.exp (v (resolveSym depth s)) else v (resolveSym depth s)

/-- When the positional symbol list covers exactly the free symbols of
`y`, `sym.lambdify` evaluation only depends on the symbol-to-value map,
not on the list's order. -/
theorem lambdify_eval_of_cover {xs : List Sym} {y : Expr Sym} (g : Sym → ℝ)
    (hmem : ∀ s, s ∈ xs ↔ s ∈ freeSymbols y) :
    lambdify_eval xs (xs.map g) y = evalE g y := by
  unfold lambdify_eval
  apply evalE_congr
  intro s hs
  rw [envOfPairs_zip_map, if_pos ((hmem s).mpr hs)]

/-- Replacing the fold function by a pointwise-equal one (on the list's
members) does not change a left fold. -/
theorem foldl_ext_mem {α β : Type} (f g : α → β → α) :
    ∀ (l : List β) (a : α), (∀ b ∈ l, ∀ x, f x b = g x b) →
      l.foldl f a = l.foldl g a := by
  intro l
  induction l with
  | nil => intro a _; rfl
  | cons b l ih =>
    intro a h
    show (l.foldl f (f a b)) = (l.foldl g (g a b))
    rw [h b (List.mem_cons_self _ _) a]
    exact ih _ (fun c hc x => h c (List.mem_cons_of_mem _ hc) x)

/-- A residual entry only depends on the free-symbol set of its
equation, through the symbol-value map. -/
theorem model_residual_enum_indep (enum : Expr Sym → List Sym) (Pt : ℕ → ℝ) (v : ℕ → ℝ)
    (lognormal : Bool) (species : String) (depth : ℕ)
    (henum : ∀ e : Expr Sym, ∀ s, s ∈ enum e ↔ s ∈ freeSymbols e) :
    model_residual enum Pt v lognormal species depth
      = evalE (symValue depth v lognormal) (equation_builder species depth Pt) :=
  lambdify_eval_of_cover (symValue depth v lognormal) (henum _)

/-- `jacobian_row` rewritten so that the value written for each free
symbol no longer mentions the enumeration. -/
theorem jacobian_row_eq_foldl (enum : Expr Sym → List Sym) (Pt : ℕ → ℝ) (v : ℕ → ℝ)
    (lognormal : Bool) (species : String) (depth : ℕ)
    (henum : ∀ e : Expr Sym, ∀ s, s ∈ enum e ↔ s ∈ freeSymbols e) :
    jacobian_row enum Pt v lognormal species depth
      = (enum (equation_builder species depth Pt)).foldl
          (fun row x => Function.update row (resolveSym depth x)
            (evalE (symValue depth v lognormal)
              (if lognormal
                then Expr.mul (deriv (equation_builder species depth Pt) x) (Expr.sym x)
                else deriv (equation_builder species depth Pt) x)))
          (fun _ => 0) := by
  unfold jacobian_row
  refine foldl_ext_mem _ _ _ _ ?_
  intro x _ row
  exact congrArg (Function.update row (resolveSym depth x))
    (lambdify_eval_of_cover (symValue depth v lognormal) (henum _))

/-- A Jacobian row is independent of the enumeration order of the
free-symbol set, provided distinct free symbols of the equation resolve
to distinct state-element columns. -/
theorem jacobian_row_enum_indep (enum₁ enum₂ : Expr Sym → List Sym) (Pt : ℕ → ℝ)
    (v : ℕ → ℝ) (lognormal : Bool) (species : String) (depth : ℕ)
    (henum₁ : ∀ e : Expr Sym, (enum₁ e).Nodup ∧ ∀ s, s ∈ enum₁ e ↔ s ∈ freeSymbols e)
    (henum₂ : ∀ e : Expr Sym, (enum₂ e).Nodup ∧ ∀ s, s ∈ enum₂ e ↔ s ∈ freeSymbols e)
    (hinj : ∀ x ∈ freeSymbols (equation_builder species depth Pt),
        ∀ x' ∈ freeSymbols (equation_builder species depth Pt),
        resolveSym depth x = resolveSym depth x' → x = x') :
    jacobian_row enum₁ Pt v lognormal species depth
      = jacobian_row enum₂ Pt v lognormal species depth := by
  rw [jacobian_row_eq_foldl enum₁ Pt v lognormal species depth (fun e => (henum₁ e).2),
    jacobian_row_eq_foldl enum₂ Pt v lognormal species depth (fun e => (henum₂ e).2)]
  have hperm : List.Perm (enum₁ (equation_builder species depth Pt))
      (enum₂ (equation_builder species depth Pt)) := by
    refine (List.perm_ext_iff_of_nodup (henum₁ _).1 (henum₂ _).1).mpr ?_
    intro a
    rw [(henum₁ _).2 a, (henum₂ _).2 a]
  refine hperm.foldl_eq' ?_ _
  intro x hx x' hx' z
  by_cases hrr : resolveSym depth x = resolveSym depth x'
  · have hxx : x = x' :=
      hinj x (((henum₁ _).2 x).mp hx) x' (((henum₁ _).2 x').mp hx') hrr
    subst hxx
    rfl
  · exact Function.update_comm hrr _ _ _

/-- C9: the evaluator's output does not depend on the iteration order
of each equation's free-symbol set.  For any two duplicate-free
enumerations of the free symbols: the residual vectors coincide
outright; a Jacobian row coincides whenever distinct free symbols of
its equation resolve to distinct state-element columns; and under that
injectivity for every model equation the whole output pair — residual
vector and Jacobian matrix — is identical, so repeated evaluation (and
hence an ATI run on top of it) is deterministic. -/
theorem evaluator_deterministic :
    ∀ (enum₁ enum₂ : Expr Sym → List Sym) (Pt : ℕ → ℝ) (v : ℕ → ℝ) (lognormal : Bool),
    (∀ e : Expr Sym, (enum₁ e).Nodup ∧ ∀ s, s ∈ enum₁ e ↔ s ∈ freeSymbols e) →
    (∀ e : Expr Sym, (enum₂ e).Nodup ∧ ∀ s, s ∈ enum₂ e ↔ s ∈ freeSymbols e) →
    ((evaluate_model_equations enum₁ Pt v lognormal).1
        = (evaluate_model_equations enum₂ Pt v lognormal).1)
    ∧ (∀ species depth,
        (∀ x ∈ freeSymbols (equation_builder species depth Pt),
          ∀ x' ∈ freeSymbols (equation_builder species depth Pt),
          resolveSym depth x = resolveSym depth x' → x = x') →
        jacobian_row enum₁ Pt v lognormal species depth
          = jacobian_row enum₂ Pt v lognormal species depth)
    ∧ ((∀ sd ∈ equation_elements,
          ∀ x ∈ freeSymbols (equation_builder sd.1 sd.2 Pt),
          ∀ x' ∈ freeSymbols (equation_builder sd.1 sd.2 Pt),
          resolveSym sd.2 x = resolveSym sd.2 x' → x = x') →
        evaluate_model_equations enum₁ Pt v lognormal
          = evaluate_model_equations enum₂ Pt v lognormal) := by
  intro enum₁ enum₂ Pt v lognormal henum₁ henum₂
  have hres : (evaluate_model_equations enum₁ Pt v lognormal).1
      = (evaluate_model_equations enum₂ Pt v lognormal).1 := by
    funext i
    show (match equation_elements.get? i with
        | some sd => model_residual enum₁ Pt v lognormal sd.1 sd.2
        | none => 0)
      = (match equation_elements.get? i with
        | some sd => model_residual enum₂ Pt v lognormal sd.1 sd.2
        | none => 0)
    cases equation_elements.get? i with
    | none => rfl
    | some sd =>
      dsimp only []
      rw [model_residual_enum_indep enum₁ Pt v lognormal sd.1 sd.2
          (fun e => (henum₁ e).2),
        model_residual_enum_indep enum₂ Pt v lognormal sd.1 sd.2
          (fun e => (henum₂ e).2)]
  refine ⟨hres, ?_, ?_⟩
  · intro species depth hinj
    exact jacobian_row_enum_indep enum₁ enum₂ Pt v lognormal species depth
      henum₁ henum₂ hinj
  · intro hinj
    refine Prod.ext hres ?_
    funext i
    show (match equation_elements.get? i with
        | some sd => jacobian_row enum₁ Pt v lognormal sd.1 sd.2
        | none => fun _ => 0)
      = (match equation_elements.get? i with
        | some sd => jacobian_row enum₂ Pt v lognormal sd.1 sd.2
        | none => fun _ => 0)
    cases hq : equation_elements.get? i with
    | none => rfl
    | some sd =>
      dsimp only []
      exact jacobian_row_enum_indep enum₁ enum₂ Pt v lognormal sd.1 sd.2
        henum₁ henum₂ (hinj sd (List.get?_mem hq))

set_option maxRecDepth 20000 in
/-- Witness for `evaluator_deterministic`: the forward and the reversed
enumeration of each free-symbol set give the same residual vector, and
the same Jacobian row for the `POCS` equation at layer 3 (whose
resolved columns are pairwise distinct, checked by `decide`). -/
theorem evaluator_deterministic_witness :
    ((evaluate_model_equations (fun e => (freeSymbols e).toList)
        (fun _ => 0) (fun _ => 0) false).1
      = (evaluate_model_equations (fun e => (freeSymbols e).toList.reverse)
        (fun _ => 0) (fun _ => 0) false).1)
    ∧ jacobian_row (fun e => (freeSymbols e).toList) (fun _ => 0) (fun _ => 0)
        false "POCS" 3
      = jacobian_row (fun e => (freeSymbols e).toList.reverse) (fun _ => 0) (fun _ => 0)
        false "POCS" 3 := by
  have h := evaluator_deterministic (fun e => (freeSymbols e).toList)
    (fun e => (freeSymbols e).toList.reverse) (fun _ => 0) (fun _ => 0) false
    (fun e => ⟨Finset.nodup_toList _, fun s => Finset.mem_toList⟩)
    (fun e => ⟨List.nodup_reverse.mpr (Finset.nodup_toList _),
      fun s => List.mem_reverse.trans Finset.mem_toList⟩)
  exact ⟨h.1, h.2.1 "POCS" 3 (by decide)⟩

/-! ## Uncertainty propagation (claim C7) -/

/-- `eval_symbolic_func` of `src/pyrite.py` (lines 464–504) in its
`err=True` branch: `enum` is the iteration order of `y.free_symbols`,
`est` the posterior point estimate of a state element (the
`run.tracer_results` / `run.param_results` lookups by symbol name) and
`cvm` the full posterior covariance matrix `run.cvm`; the sub-CVM
`cvm[np.ix_(x_indices, x_indices)]` is indexed through `x_indices`. -/
noncomputable def eval_symbolic_func (enum : Expr ElementKey → List ElementKey)
    (state_els : List ElementKey) (est : ElementKey → ℝ) (cvm : ℕ → ℕ → ℝ)
    (cov : Bool) (y : Expr ElementKey) : ℝ × ℝ :=
  let x_symbolic := enum y
  let x_indices := x_symbolic.map fun x => state_els.indexOf x
  let x_numerical := x_symbolic.map est
  let result := evalE (envOfPairs (x_symbolic.zip x_numerical)) y
  let derivs := x_symbolic.map fun x => deriv y x
  let cvmSub : ℕ → ℕ → ℝ := fun i j => cvm (x_indices.getD i 0) (x_indices.getD j 0)
  let n := x_symbolic.length
  let variance_sym := (List.range n).foldl (fun acc i =>
      (List.range n).foldl (fun acc2 j =>
        if i > j then acc2
        else if i = j then
          acc2 + Expr.pow (derivs.getD i (Expr.const 0)) 2 * Expr.const (cvmSub i j)
        else if cov then
          acc2 + Expr.const 2 * derivs.getD i (Expr.const 0) * derivs.getD j (Expr.const 0)
            * Expr.const (cvmSub i j)
        else acc2) acc) (Expr.const 0)
  let variance := evalE (envOfPairs (x_symbolic.zip x_numerical)) variance_sym
  (result, Real.sqrt variance)

/-- The spec's derivative factor `∂y/∂xᵢ` at the posterior estimates,
for position `i` of the free-symbol list. -/
noncomputable def dSpec (est : ElementKey → ℝ) (y : Expr ElementKey)
    (xs : List ElementKey) (i : ℕ) : ℝ :=
  evalE est (deriv y (xs.getD i (ElementKey.paramG "")))

/-- The spec's covariance sub-block entry `Cov(i,j)`, for positions
`i, j` of the free-symbol list. -/
def cSpec (state_els : List ElementKey) (cvm : ℕ → ℕ → ℝ)
    (xs : List ElementKey) (i j : ℕ) : ℝ :=
  cvm (state_els.indexOf (xs.getD i (ElementKey.paramG "")))
    (state_els.indexOf (xs.getD j (ElementKey.paramG "")))

/-- The spec's first-order propagated variance
`Σᵢ (∂y/∂xᵢ)²·Cov(i,i) + 2·Σ_i<j (∂y/∂xᵢ)(∂y/∂xⱼ)·Cov(i,j)`, with the
cross terms omitted when `cov` is off.  Stated from the spec's words,
to be compared with the code's accumulation. -/
noncomputable def variance_spec (n : ℕ) (D : ℕ → ℝ) (C : ℕ → ℕ → ℝ) (cov : Bool) : ℝ :=
  (∑ i in Finset.range n, (D i) ^ 2 * C i i)
    + if cov then
        ∑ i in Finset.range n, ∑ j in Finset.range n,
          if i < j then 2 * D i * D j * C i j else 0
      else 0

/-- Free symbols of a sympy derivative are among the free symbols of
the differentiated expression. -/
theorem freeSymbols_deriv_subset {σ : Type} [DecidableEq σ] :
    ∀ (e : Expr σ) (x : σ), freeSymbols (deriv e x) ⊆ freeSymbols e := by
  intro e
  induction e with
  | const c => intro x; simp [deriv]
  | sym s => intro x; unfold deriv; split_ifs <;> simp
  | add a b iha ihb =>
    intro x
    exact Finset.union_subset_union (iha x) (ihb x)
  | sub a b iha ihb =>
    intro x
    exact Finset.union_subset_union (iha x) (ihb x)
  | mul a b iha ihb =>
    intro x
    show freeSymbols (deriv a x) ∪ freeSymbols b ∪ (freeSymbols a ∪ freeSymbols (deriv b x))
      ⊆ freeSymbols a ∪ freeSymbols b
    refine Finset.union_subset (Finset.union_subset ?_ ?_) (Finset.union_subset ?_ ?_)
    · exact (iha x).trans (Finset.subset_union_left)
    · exact Finset.subset_union_right
    · exact Finset.subset_union_left
    · exact (ihb x).trans (Finset.subset_union_right)
  | div a b iha ihb =>
    intro x
    show freeSymbols (deriv a x) ∪ freeSymbols b ∪ (freeSymbols a ∪ freeSymbols (deriv b x))
        ∪ freeSymbols b
      ⊆ freeSymbols a ∪ freeSymbols b
    refine Finset.union_subset
      (Finset.union_subset (Finset.union_subset ?_ ?_) (Finset.union_subset ?_ ?_)) ?_
    · exact (iha x).trans (Finset.subset_union_left)
    · exact Finset.subset_union_right
    · exact Finset.subset_union_left
    · exact (ihb x).trans (Finset.subset_union_right)
    · exact Finset.subset_union_right
  | neg a iha => intro x; exact iha x
  | pow a k iha =>
    intro x
    show ∅ ∪ freeSymbols a ∪ freeSymbols (deriv a x) ⊆ freeSymbols a
    refine Finset.union_subset (Finset.union_subset ?_ ?_) (iha x)
    · exact Finset.empty_subset _
    · exact Finset.Subset.refl _
  | eexp a iha =>
    intro x
    exact Finset.union_subset (Finset.Subset.refl _) (iha x)

/-- Evaluating a left fold whose every step adds a known quantity. -/
theorem evalE_foldl_step {σ α : Type} (env : σ → ℝ) :
    ∀ (l : List α) (F : Expr σ → α → Expr σ) (val : α → ℝ) (e0 : Expr σ),
      (∀ acc, ∀ x ∈ l, evalE env (F acc x) = evalE env acc + val x) →
      evalE env (l.foldl F e0) = evalE env e0 + (l.map val).sum := by
  intro l
  induction l with
  | nil => intro F val e0 _; simp
  | cons x t ih =>
    intro F val e0 hF
    show evalE env (t.foldl F (F e0 x)) = _
    rw [ih F val (F e0 x) (fun acc z hz => hF acc z (List.mem_cons_of_mem _ hz)),
      hF e0 x (List.mem_cons_self _ _)]
    simp [add_assoc]

/-- A sum of a function over `List.range` is the `Finset.range` sum. -/
theorem list_range_map_sum (f : ℕ → ℝ) :
    ∀ n : ℕ, ((List.range n).map f).sum = ∑ i in Finset.range n, f i := by
  intro n
  induction n with
  | zero => rfl
  | succ n ih =>
    rw [List.range_succ, List.map_append, List.sum_append, Finset.sum_range_succ, ih]
    simp

/-- A duplicate-free list whose members are exactly `k` is `[k]`. -/
theorem eq_singleton_of_nodup_cover {α : Type} {l : List α} {k : α}
    (hn : l.Nodup) (hm : ∀ s, s ∈ l ↔ s = k) : l = [k] := by
  cases l with
  | nil => exact absurd ((hm k).mpr rfl) (List.not_mem_nil k)
  | cons a t =>
    have ha : a = k := (hm a).mp (List.mem_cons_self _ _)
    subst ha
    cases t with
    | nil => rfl
    | cons b u =>
      have hb : b = a := (hm b).mp (List.mem_cons_of_mem _ (List.mem_cons_self _ _))
      subst hb
      rw [List.nodup_cons] at hn
      exact absurd (List.mem_cons_self _ _) hn.1

/-- The quantity one inner-loop step of the variance accumulation adds:
zero below the diagonal, the diagonal term on it, the cross term (if
`cov`) above it. -/
noncomputable def varTerm (D : ℕ → ℝ) (C : ℕ → ℕ → ℝ) (cov : Bool) (i j : ℕ) : ℝ :=
  if i > j then 0
  else if i = j then D i ^ 2 * C i i
  else if cov then 2 * D i * D j * C i j
  else 0

/-- Summing `varTerm` over the index square gives the spec's variance
formula. -/
theorem varTerm_sum (n : ℕ) (D : ℕ → ℝ) (C : ℕ → ℕ → ℝ) (cov : Bool) :
    (∑ i in Finset.range n, ∑ j in Finset.range n, varTerm D C cov i j)
      = variance_spec n D C cov := by
  have hsplit : ∀ i j : ℕ, varTerm D C cov i j
      = (if i = j then D i ^ 2 * C i i else 0)
        + (if i < j then (if cov then 2 * D i * D j * C i j else 0) else 0) := by
    intro i j
    unfold varTerm
    split_ifs <;> first | ring1 | (exfalso; omega)
  calc (∑ i in Finset.range n, ∑ j in Finset.range n, varTerm D C cov i j)
      = ∑ i in Finset.range n,
          ((∑ j in Finset.range n, if i = j then D i ^ 2 * C i i else 0)
            + ∑ j in Finset.range n,
                (if i < j then (if cov then 2 * D i * D j * C i j else 0) else 0)) := by
        refine Finset.sum_congr rfl fun i _ => ?_
        rw [← Finset.sum_add_distrib]
        exact Finset.sum_congr rfl fun j _ => hsplit i j
    _ = (∑ i in Finset.range n, D i ^ 2 * C i i)
        + ∑ i in Finset.range n, ∑ j in Finset.range n,
            (if i < j then (if cov then 2 * D i * D j * C i j else 0) else 0) := by
        rw [Finset.sum_add_distrib]
        congr 1
        refine Finset.sum_congr rfl fun i hi => ?_
        rw [Finset.sum_ite_eq (Finset.range n) i fun _ => D i ^ 2 * C i i, if_pos hi]
    _ = variance_spec n D C cov := by
        unfold variance_spec
        congr 1
        by_cases hcov : cov = true
        · rw [if_pos hcov]
          refine Finset.sum_congr rfl fun i _ => Finset.sum_congr rfl fun j _ => ?_
          rw [hcov]
          simp only [if_true]
        · rw [if_neg hcov]
          refine Finset.sum_eq_zero fun i _ => Finset.sum_eq_zero fun j _ => ?_
          rw [if_neg hcov]
          simp only [if_neg, ite_self]

/-- Evaluating the code's nested variance accumulation: it equals the
spec's variance formula whenever the positional derivative values and
sub-CVM entries are described by `D` and `C`. -/
theorem variance_fold_eval {σ : Type} (env : σ → ℝ) (n : ℕ)
    (dl : List (Expr σ)) (ci : List ℕ) (cvm : ℕ → ℕ → ℝ) (cov : Bool)
    (D : ℕ → ℝ) (C : ℕ → ℕ → ℝ)
    (hD : ∀ i, i < n → evalE env (dl.getD i (Expr.const 0)) = D i)
    (hC : ∀ i, i < n → ∀ j, j < n → cvm (ci.getD i 0) (ci.getD j 0) = C i j) :
    evalE env ((List.range n).foldl (fun acc i =>
        (List.range n).foldl (fun acc2 j =>
          if i > j then acc2
          else if i = j then
            acc2 + Expr.pow (dl.getD i (Expr.const 0)) 2
              * Expr.const (cvm (ci.getD i 0) (ci.getD j 0))
          else if cov then
            acc2 + Expr.const 2 * dl.getD i (Expr.const 0) * dl.getD j (Expr.const 0)
              * Expr.const (cvm (ci.getD i 0) (ci.getD j 0))
          else acc2) acc) (Expr.const 0))
      = variance_spec n D C cov := by
  have hstep : ∀ acc, ∀ i ∈ List.range n,
      evalE env ((List.range n).foldl (fun acc2 j =>
          if i > j then acc2
          else if i = j then
            acc2 + Expr.pow (dl.getD i (Expr.const 0)) 2
              * Expr.const (cvm (ci.getD i 0) (ci.getD j 0))
          else if cov then
            acc2 + Expr.const 2 * dl.getD i (Expr.const 0) * dl.getD j (Expr.const 0)
              * Expr.const (cvm (ci.getD i 0) (ci.getD j 0))
          else acc2) acc)
        = evalE env acc + ((List.range n).map (varTerm D C cov i)).sum := by
    intro acc i hi
    refine evalE_foldl_step env (List.range n) _ (varTerm D C cov i) acc ?_
    intro acc2 j hj
    have hi' := List.mem_range.mp hi
    have hj' := List.mem_range.mp hj
    by_cases h1 : i > j
    · rw [if_pos h1]
      unfold varTerm
      rw [if_pos h1, add_zero]
    · rw [if_neg h1]
      by_cases h2 : i = j
      · subst h2
        rw [if_pos rfl]
        simp only [evalE_add, evalE_mul, evalE_pow, evalE_const]
        rw [hD i hi', hC i hi' i hi']
        unfold varTerm
        rw [if_neg h1, if_pos rfl]
      · rw [if_neg h2]
        by_cases h3 : cov = true
        · rw [if_pos h3]
          simp only [evalE_add, evalE_mul, evalE_const]
          rw [hD i hi', hD j hj', hC i hi' j hj']
          unfold varTerm
          rw [if_neg h1, if_neg h2, if_pos h3]
        · rw [if_neg h3]
          unfold varTerm
          rw [if_neg h1, if_neg h2, if_neg h3, add_zero]
  rw [evalE_foldl_step env (List.range n) _
      (fun i => ((List.range n).map (varTerm D C cov i)).sum) (Expr.const 0) hstep]
  rw [evalE_const, list_range_map_sum (fun i => ((List.range n).map (varTerm D C cov i)).sum) n,
    zero_add]
  calc ∑ i in Finset.range n, ((List.range n).map (varTerm D C cov i)).sum
      = ∑ i in Finset.range n, ∑ j in Finset.range n, varTerm D C cov i j :=
        Finset.sum_congr rfl fun i _ => list_range_map_sum _ n
    _ = variance_spec n D C cov := varTerm_sum n D C cov

/-- C7: for every symbolic expression over state elements,
`eval_symbolic_func` returns the value of `y` at the posterior point
estimates, together with the square root of the first-order propagated
variance `Σᵢ (∂y/∂xᵢ)²·Cov(i,i) + 2·Σ_i<j (∂y/∂xᵢ)(∂y/∂xⱼ)·Cov(i,j)`
over the posterior-covariance sub-block indexed by `y`'s free symbols,
the cross terms being dropped when the independence mode `cov=False`
is selected; for a bare state element `x_i` it returns exactly the
posterior mean of `x_i` and `sqrt(Ck+1[i,i])`. -/
theorem eval_symbolic_func_spec :
    ∀ (enum : Expr ElementKey → List ElementKey) (state_els : List ElementKey)
      (est : ElementKey → ℝ) (cvm : ℕ → ℕ → ℝ) (cov : Bool) (y : Expr ElementKey),
    (∀ e : Expr ElementKey, (enum e).Nodup ∧ ∀ s, s ∈ enum e ↔ s ∈ freeSymbols e) →
    (eval_symbolic_func enum state_els est cvm cov y).1 = evalE est y
    ∧ (eval_symbolic_func enum state_els est cvm cov y).2
        = Real.sqrt (variance_spec (enum y).length (dSpec est y (enum y))
            (cSpec state_els cvm (enum y)) cov)
    ∧ (∀ k : ElementKey, y = Expr.sym k →
        eval_symbolic_func enum state_els est cvm cov y
          = (est k, Real.sqrt (cvm (state_els.indexOf k) (state_els.indexOf k)))) := by
  intro enum state_els est cvm cov y henum
  have hcover := (henum y).2
  have henv : ∀ s ∈ freeSymbols y,
      envOfPairs ((enum y).zip ((enum y).map est)) s = est s := by
    intro s hs
    rw [envOfPairs_zip_map, if_pos ((hcover s).mpr hs)]
  have hder : ∀ x : ElementKey,
      evalE (envOfPairs ((enum y).zip ((enum y).map est))) (deriv y x)
        = evalE est (deriv y x) :=
    fun x => evalE_congr _ (fun s hs => henv s (freeSymbols_deriv_subset y x hs))
  have hres : (eval_symbolic_func enum state_els est cvm cov y).1 = evalE est y :=
    evalE_congr y henv
  have hgetDd : ∀ i, i < (enum y).length →
      (((enum y).map fun x => deriv y x).getD i (Expr.const 0))
        = deriv y ((enum y).getD i (ElementKey.paramG "")) := by
    intro i hi
    rw [List.getD_eq_getElem _ _ (by simpa using hi), List.getD_eq_getElem _ _ hi,
      List.getElem_map]
  have hgetDi : ∀ i, i < (enum y).length →
      ((((enum y)).map fun x => state_els.indexOf x).getD i 0)
        = state_els.indexOf ((enum y).getD i (ElementKey.paramG "")) := by
    intro i hi
    rw [List.getD_eq_getElem _ _ (by simpa using hi), List.getD_eq_getElem _ _ hi,
      List.getElem_map]
  have hvarkey := variance_fold_eval (envOfPairs ((enum y).zip ((enum y).map est)))
    (enum y).length ((enum y).map fun x => deriv y x)
    ((enum y).map fun x => state_els.indexOf x) cvm cov
    (dSpec est y (enum y)) (cSpec state_els cvm (enum y))
    (fun i hi => by rw [hgetDd i hi, hder]; rfl)
    (fun i hi j hj => by rw [hgetDi i hi, hgetDi j hj]; rfl)
  have hvar : (eval_symbolic_func enum state_els est cvm cov y).2
      = Real.sqrt (variance_spec (enum y).length (dSpec est y (enum y))
          (cSpec state_els cvm (enum y)) cov) := congrArg Real.sqrt hvarkey
  refine ⟨hres, hvar, ?_⟩
  intro k hk
  subst hk
  have hxk : enum (Expr.sym k) = [k] :=
    eq_singleton_of_nodup_cover (henum _).1
      (fun s => ((henum _).2 s).trans (by simp))
  have h1 : (eval_symbolic_func enum state_els est cvm cov (Expr.sym k)).1 = est k := by
    rw [hres]
    rfl
  have h2 : (eval_symbolic_func enum state_els est cvm cov (Expr.sym k)).2
      = Real.sqrt (cvm (state_els.indexOf k) (state_els.indexOf k)) := by
    rw [hvar, hxk]
    congr 1
    unfold variance_spec dSpec cSpec
    simp only [List.length_singleton, Finset.sum_range_one, List.getD_cons_zero]
    rw [show deriv (Expr.sym k) k = Expr.const 1 from by unfold deriv; rw [if_pos rfl]]
    by_cases hcov : cov = true
    · rw [if_pos hcov]
      simp only [evalE_const, one_pow, one_mul, lt_irrefl, if_false]
      ring
    · rw [if_neg hcov]
      simp only [evalE_const, one_pow, one_mul]
      ring
  calc eval_symbolic_func enum state_els est cvm cov (Expr.sym k)
      = ((eval_symbolic_func enum state_els est cvm cov (Expr.sym k)).1,
         (eval_symbolic_func enum state_els est cvm cov (Expr.sym k)).2) := rfl
    _ = (est k, Real.sqrt (cvm (state_els.indexOf k) (state_els.indexOf k))) := by
        rw [h1, h2]

/-- Witness for `eval_symbolic_func_spec` at the bare state element
`POCS_0` with zero estimates and zero covariance. -/
theorem eval_symbolic_func_spec_witness :
    eval_symbolic_func (fun e => (freeSymbols e).toList) state_elements
        (fun _ => 0) (fun _ _ => 0) true (Expr.sym (ElementKey.tracerAt "POCS" 0))
      = (0, Real.sqrt 0) := by
  have h := eval_symbolic_func_spec (fun e => (freeSymbols e).toList) state_elements
    (fun _ => 0) (fun _ _ => 0) true (Expr.sym (ElementKey.tracerAt "POCS" 0))
    (fun e => ⟨Finset.nodup_toList _, fun s => Finset.mem_toList⟩)
  exact h.2.2 (ElementKey.tracerAt "POCS" 0) rfl

/-! ## Log-parameterized prior builder on nonpositive priors (claim C10) -/

/-- A numpy double as the model sees it: a finite real, `nan`, `inf`, or
`-inf`. -/
inductive NpFloat where
  | finite : ℝ → NpFloat
  | nan : NpFloat
  | inf : NpFloat
  | neginf : NpFloat

/-- Whether the value is an ordinary (finite) float. -/
def NpFloat.isFinite : NpFloat → Bool
  | .finite _ => true
  | _ => false

/-- `np.log` elementwise: positive → its log, `0 → -inf`,
negative → `nan` (each with a `RuntimeWarning`, never an exception). -/
noncomputable def npLog : NpFloat → NpFloat
  | .finite x => if 0 < x then .finite (Real.log x) else if x = 0 then .neginf else .nan
  | .nan => .nan
  | .inf => .inf
  | .neginf => .nan

/-- numpy division: `0/0 → nan`, `±a/0 → ±inf` (warnings, no
exception). -/
noncomputable def npDiv : NpFloat → NpFloat → NpFloat
  | .finite a, .finite b =>
      if b = 0 then (if a = 0 then .nan else if 0 < a then .inf else .neginf)
      else .finite (a / b)
  | .nan, _ => .nan
  | _, .nan => .nan
  | .inf, .finite b => if 0 ≤ b then .inf else .neginf
  | .neginf, .finite b => if 0 ≤ b then .neginf else .inf
  | .finite _, .inf => .finite 0
  | .finite _, .neginf => .finite 0
  | .inf, .inf => .nan
  | .inf, .neginf => .nan
  | .neginf, .inf => .nan
  | .neginf, .neginf => .nan

/-- `1 + v` in numpy arithmetic. -/
noncomputable def npAdd1 : NpFloat → NpFloat
  | .finite x => .finite (1 + x)
  | .nan => .nan
  | .inf => .inf
  | .neginf => .neginf

/-- The log-transform fragment of `define_prior_vector_and_cov_matrix`
(`src/pyrite.py` lines 266–312): the assembled prior vector `xo` and
covariance `Co` (tracer/parameter assembly abstracted into the given
functions) are returned together with `xo_log = np.log(xo)` and
`Co_log[i,j] = np.log(1 + Co[i,j]/(xo[i]·xo[j]))`, with no positivity
check on `xo` anywhere. -/
noncomputable def define_prior_vector_and_cov_matrix (xo : ℕ → ℝ) (Co : ℕ → ℕ → ℝ) :
    (ℕ → ℝ) × (ℕ → NpFloat) × (ℕ → ℕ → ℝ) × (ℕ → ℕ → NpFloat) :=
  (xo,
   fun i => npLog (.finite (xo i)),
   Co,
   fun i j => npLog (npAdd1 (npDiv (.finite (Co i j)) (.finite (xo i * xo j)))))

/-- C10: the log-parameterized state vector builder performs no
positivity check: on a prior with a zero or negative entry it still
returns a value (the embedding is a total function — the code path has
no raise), and that value's `xo_log` entry is non-finite — `-inf` for
a zero prior, `nan` for a negative one — while a zero prior with
positive variance also drives the matching diagonal `Co_log` entry to
`inf` through the division by `xo[i]·xo[i] = 0`.  These entries are
exactly what the constructor then hands to `ATI` (line 65), whose
first iterate starts from `xk = xo_log` (line 539) with no
validation. -/
theorem log_prior_builder_nonpositive :
    ∀ (xo : ℕ → ℝ) (Co : ℕ → ℕ → ℝ) (i : ℕ),
    xo i ≤ 0 →
    ((define_prior_vector_and_cov_matrix xo Co).2.1 i).isFinite = false
    ∧ (xo i = 0 → (define_prior_vector_and_cov_matrix xo Co).2.1 i = NpFloat.neginf)
    ∧ (xo i < 0 → (define_prior_vector_and_cov_matrix xo Co).2.1 i = NpFloat.nan)
    ∧ (xo i = 0 → 0 < Co i i →
        (define_prior_vector_and_cov_matrix xo Co).2.2.2 i i = NpFloat.inf) := by
  intro xo Co i hle
  have hnp : ¬ 0 < xo i := not_lt.mpr hle
  refine ⟨?_, ?_, ?_, ?_⟩
  · show (npLog (.finite (xo i))).isFinite = false
    unfold npLog
    dsimp only []
    rw [if_neg hnp]
    by_cases h0 : xo i = 0
    · rw [if_pos h0]
      rfl
    · rw [if_neg h0]
      rfl
  · intro h0
    show npLog (.finite (xo i)) = NpFloat.neginf
    unfold npLog
    dsimp only []
    rw [if_neg hnp, if_pos h0]
  · intro hneg
    show npLog (.finite (xo i)) = NpFloat.nan
    unfold npLog
    dsimp only []
    rw [if_neg hnp, if_neg (ne_of_lt hneg)]
  · intro h0 hcpos
    show npLog (npAdd1 (npDiv (.finite (Co i i)) (.finite (xo i * xo i)))) = NpFloat.inf
    rw [show xo i * xo i = 0 from by rw [h0, mul_zero]]
    unfold npDiv
    dsimp only []
    rw [if_pos rfl, if_neg (ne_of_gt hcpos), if_pos hcpos]
    rfl

/-- Witness for `log_prior_builder_nonpositive`: a zero prior with unit
variance yields `xo_log[0] = -inf` and `Co_log[0,0] = inf`, and no
error. -/
theorem log_prior_builder_nonpositive_witness :
    ((define_prior_vector_and_cov_matrix (fun _ => 0) (fun _ _ => 1)).2.1 0).isFinite
      = false
    ∧ (define_prior_vector_and_cov_matrix (fun _ => 0) (fun _ _ => 1)).2.1 0
      = NpFloat.neginf
    ∧ (define_prior_vector_and_cov_matrix (fun _ => 0) (fun _ _ => 1)).2.2.2 0 0
      = NpFloat.inf := by
  have h := log_prior_builder_nonpositive (fun _ => 0) (fun _ _ => 1) 0 (le_refl 0)
  exact ⟨h.1, h.2.1 rfl, h.2.2.2 rfl (by norm_num)⟩

end Pyrite
